import Mathlib

/-!
Verification of the numeric core of the time-dilation calculator (`pypy.py`).

The program performs all `Decimal` arithmetic in a global context with
`prec = 200` and rounding `ROUND_HALF_EVEN` (line 8 of the source), while
`math.sqrt` and the division `1 / math.sqrt (...)` in `time_dilation_factor`
are IEEE-754 binary64 operations.  We embed both number systems shallowly
over `ℚ`:

* a decimal (resp. binary64) value is the rational it denotes;
* every context-rounded `Decimal` operation is the exact rational operation
  followed by `roundSig 10 200` (round to 200 significant digits, ties to
  even); `x ** 2` rounds once at 203 digits and then at 200 (the squaring
  is performed with three guard digits, observed behaviour of the `decimal`
  module for integral exponents);
* every binary64 operation is the exact operation followed by `roundSig 2 53`
  (all binary64 values arising in the modelled computations lie in the
  normal range, far from overflow and subnormal underflow, so rounding the
  significand to 53 bits is the exact IEEE-754 semantics there).

Fallible Python code is modelled with `Option`/`Except`: an exception that
the source catches and converts to `None` becomes `none`; an exception that
escapes a function is an `Except.error`.

The kernel does not unfold the `@[irreducible]` field operations of `ℚ`, so
the executable definitions use `mkRat`-based clones `qmul`, `qadd`, `qsub`,
`qdiv`, `qinv`, `qpow`; the bridge lemmas right after them show each clone
equal to the corresponding standard operation, and all order/field reasoning
is carried out on the standard side.
-/

set_option maxRecDepth 8000

namespace TimeDilation

/-! ### Kernel-computable rational arithmetic -/

/-- `a * b` on `ℚ`, kernel-computable clone. -/
def qmul (a b : ℚ) : ℚ := mkRat (a.num * b.num) (a.den * b.den)

/-- `a + b` on `ℚ`, kernel-computable clone. -/
def qadd (a b : ℚ) : ℚ := mkRat (a.num * b.den + b.num * a.den) (a.den * b.den)

/-- `a - b` on `ℚ`, kernel-computable clone. -/
def qsub (a b : ℚ) : ℚ := mkRat (a.num * b.den - b.num * a.den) (a.den * b.den)

/-- `-a` on `ℚ`, kernel-computable clone. -/
def qneg (a : ℚ) : ℚ := mkRat (-a.num) a.den

/-- `a⁻¹` on `ℚ`, kernel-computable clone. -/
def qinv (a : ℚ) : ℚ := Rat.divInt a.den a.num

/-- `a / b` on `ℚ`, kernel-computable clone. -/
def qdiv (a b : ℚ) : ℚ := qmul a (qinv b)

/-- `b ^ n` on `ℚ`, kernel-computable. -/
def qpowNat (b : ℚ) : ℕ → ℚ
  | 0 => 1
  | n + 1 => qmul b (qpowNat b n)

/-- `b ^ e` for an integer exponent, kernel-computable. -/
def qpow (b : ℚ) : ℤ → ℚ
  | .ofNat n => qpowNat b n
  | .negSucc n => qinv (qpowNat b (n + 1))

theorem qmul_eq (a b : ℚ) : qmul a b = a * b := (Rat.mul_eq_mkRat a b).symm

theorem qadd_eq (a b : ℚ) : qadd a b = a + b := (Rat.add_def' a b).symm

theorem qsub_eq (a b : ℚ) : qsub a b = a - b := (Rat.sub_def' a b).symm

theorem qneg_eq (a : ℚ) : qneg a = -a := by
  rw [qneg, Rat.neg_def, Rat.mkRat_eq_divInt]

theorem qinv_eq (a : ℚ) : qinv a = a⁻¹ := (Rat.inv_def' a).symm

theorem qdiv_eq (a b : ℚ) : qdiv a b = a / b := by
  rw [qdiv, qmul_eq, qinv_eq, div_eq_mul_inv]

theorem qpowNat_eq (b : ℚ) (n : ℕ) : qpowNat b n = b ^ n := by
  induction n with
  | zero => rfl
  | succ n ih => rw [qpowNat, qmul_eq, ih, pow_succ, mul_comm]

theorem qpow_eq (b : ℚ) (e : ℤ) : qpow b e = b ^ e := by
  cases e with
  | ofNat n => rw [qpow, qpowNat_eq]; exact (zpow_natCast b n).symm
  | negSucc n => rw [qpow, qinv_eq, qpowNat_eq, zpow_negSucc]

/-! ### Digit counts and floor logarithms, kernel-computable

`Nat.log`/`Int.log` are defined by well-founded recursion, which the kernel
does not unfold, so we use a fuel-based digit counter instead and derive the
floor logarithm of a rational from it. -/

/-- `ndigitsAux b fuel n` counts base-`b` digits of `n` (0 for `n = 0`). -/
def ndigitsAux (b : ℕ) : ℕ → ℕ → ℕ
  | 0, _ => 0
  | fuel + 1, n => if n = 0 then 0 else ndigitsAux b fuel (n / b) + 1

/-- Number of base-`b` digits of `n`; `ndigits b 0 = 0`. -/
def ndigits (b n : ℕ) : ℕ := ndigitsAux b (n + 1) n

/-- Absolute value on `ℚ`, kernel-computable. -/
def qabs (q : ℚ) : ℚ := if q < 0 then qneg q else q

/-- Floor on `ℚ`, kernel-computable. -/
def qfloor (q : ℚ) : ℤ := q.num.fdiv q.den

/-- Ceiling on `ℚ`, kernel-computable. -/
def qceil (q : ℚ) : ℤ := -qfloor (qneg q)

theorem qabs_eq (q : ℚ) : qabs q = |q| := by
  rw [qabs, qneg_eq]
  rcases lt_trichotomy q 0 with h | h | h
  · rw [if_pos h, abs_of_neg h]
  · simp [h]
  · rw [if_neg (not_lt.2 h.le), abs_of_pos h]

theorem qfloor_eq (q : ℚ) : qfloor q = ⌊q⌋ := by
  rw [qfloor, Int.fdiv_eq_ediv _ (Int.ofNat_nonneg q.den), Rat.floor_def]

theorem qceil_eq (q : ℚ) : qceil q = ⌈q⌉ := by
  rw [qceil, qneg_eq, qfloor_eq, Int.floor_neg, neg_neg]

/-- Floor logarithm: for `q ≠ 0`, the unique `e : ℤ` with
`b ^ e ≤ |q| < b ^ (e + 1)` (for `2 ≤ b`); junk value at `q = 0`. -/
def qexp (b : ℕ) (q : ℚ) : ℤ :=
  if 1 ≤ qabs q then (ndigits b (qfloor (qabs q)).toNat : ℤ) - 1
  else -(ndigits b ((qceil (qinv (qabs q))).toNat - 1) : ℤ)

/-- Round a rational to the nearest integer, ties to even
(the rounding of IEEE-754 and of the program's `Decimal` context). -/
def rhe (q : ℚ) : ℤ :=
  let n := qfloor q
  let f := qsub q (n : ℚ)
  if f < mkRat 1 2 then n
  else if mkRat 1 2 < f then n + 1
  else if n % 2 = 0 then n else n + 1

/-- Round `q` to `p` significant base-`b` digits, ties to even. -/
def roundSig (b : ℕ) (p : ℕ) (q : ℚ) : ℚ :=
  if q = 0 then 0
  else
    let e : ℤ := qexp b q - (p - 1 : ℕ)
    qmul (rhe (qdiv q (qpow ((b : ℤ) : ℚ) e)) : ℚ) (qpow ((b : ℤ) : ℚ) e)

/-- Rounding performed by every arithmetic operation of the program's
`Decimal` context: 200 significant digits (line 8), ties to even. -/
def decRound (q : ℚ) : ℚ := roundSig 10 200 q

/-- IEEE-754 binary64 rounding (53-bit significand, ties to even),
exact for the normal range in which all modelled float values lie. -/
def fl64 (q : ℚ) : ℚ := roundSig 2 53 q

/-! ### Integer square root (Newton iteration with explicit fuel)

`Nat.sqrt` is defined by well-founded recursion, which the kernel does not
unfold; this fuel-based version evaluates under `decide` and is proved equal
to `Nat.sqrt` below. -/

/-- One fuel-counted Newton descent for the integer square root of `n`. -/
def isqrtAux (n : ℕ) : ℕ → ℕ → ℕ
  | 0, g => g
  | fuel + 1, g =>
    if (g + n / g) / 2 < g then isqrtAux n fuel ((g + n / g) / 2) else g

/-- `⌊√n⌋`, kernel-computable. -/
def isqrt (n : ℕ) : ℕ := if n ≤ 1 then n else isqrtAux n n (n / 2)

/-- Nearest integer to `√x / d` (ties to even): the correctly rounded
significand of a square root on a grid with cell size `1 / d`. -/
def sqrtNearest (x d : ℕ) : ℕ :=
  let k0 := isqrt x / d
  let c := d ^ 2 * (2 * k0 + 1) ^ 2
  if 4 * x < c then k0
  else if c < 4 * x then k0 + 1
  else if k0 % 2 = 0 then k0 else k0 + 1

/-- Exponent of the grid on which a `p`-significant-digit base-`b` square
root of `q` lives: `√q ∈ [b^e', b^(e'+1))` where `e' = ⌊qexp b q / 2⌋`, and
the result is an integer multiple of `b^(e' - (p-1))`. -/
def sqrtSigS (b p : ℕ) (q : ℚ) : ℤ := (qexp b q).fdiv 2 - (p - 1 : ℕ)

/-- The significand of the correctly rounded square root: the nearest integer
(ties to even) to `√q / b^s`, computed from integer square roots. -/
def sqrtSigK (b p : ℕ) (q : ℚ) : ℕ :=
  if 0 ≤ sqrtSigS b p q then
    sqrtNearest (q.num.toNat * q.den) (q.den * b ^ (sqrtSigS b p q).toNat)
  else
    sqrtNearest (q.num.toNat * q.den * (b ^ (-sqrtSigS b p q).toNat) ^ 2) q.den

/-- Correctly rounded square root at `p` significant base-`b` digits
(ties to even); `0` on nonpositive input (callers reject negatives first). -/
def sqrtSig (b p : ℕ) (q : ℚ) : ℚ :=
  if q ≤ 0 then 0
  else qmul (sqrtSigK b p q : ℚ) (qpow ((b : ℤ) : ℚ) (sqrtSigS b p q))

/-! ### The modelled `Decimal` and binary64 operations

Each `Decimal` operation computes the exact rational result and rounds it to
the 200-digit context (`decRound`); `x ** 2` is evaluated with three guard
digits and then rounded to the context, the observed behaviour of the
`decimal` module for integral exponents.  `//` is `divide-integer` (truncation
toward zero) and `%` the corresponding remainder; both are exact at the
operand sizes reached by the modelled program.  `math.sqrt` converts its
argument to binary64 (`fl64`) and takes a correctly rounded binary64 square
root; `1 / s` on floats is a correctly rounded binary64 division. -/

/-- `Decimal` subtraction under the program's context. -/
def dec_sub (a b : ℚ) : ℚ := decRound (qsub a b)

/-- `Decimal` multiplication under the program's context. -/
def dec_mul (a b : ℚ) : ℚ := decRound (qmul a b)

/-- `Decimal` division under the program's context (callers guard `b = 0`,
where `Decimal` raises `DivisionByZero`). -/
def dec_div (a b : ℚ) : ℚ := decRound (qdiv a b)

/-- `Decimal` squaring `x ** 2`: three guard digits, then the context. -/
def dec_pow2 (x : ℚ) : ℚ := decRound (roundSig 10 203 (qmul x x))

/-- `Decimal.sqrt`: correctly rounded at the 200-digit context. -/
def dec_sqrt (q : ℚ) : ℚ := sqrtSig 10 200 q

/-- Truncation toward zero, the quotient of `Decimal`'s `//`. -/
def qtrunc (q : ℚ) : ℤ := q.num.tdiv q.den

/-- `Decimal` floor-division `a // b` (integer quotient, truncated toward 0). -/
def dec_floordiv (a b : ℚ) : ℤ := qtrunc (qdiv a b)

/-- `Decimal` remainder `a % b` (sign of the dividend). -/
def dec_mod (a b : ℚ) : ℚ := qsub a (qmul (dec_floordiv a b : ℚ) b)

/-- Correctly rounded binary64 square root (`math.sqrt` on a float). -/
def fsqrt (q : ℚ) : ℚ := sqrtSig 2 53 q

/-- Correctly rounded binary64 division (`1 / s` on floats). -/
def fdiv (a b : ℚ) : ℚ := fl64 (qdiv a b)

/-! ### Program constants (source lines 11-45) -/

/-- `C_MS = Decimal("299792458")`, speed of light in m/s. -/
def C_MS : ℚ := 299792458

/-- `C_CMS = C_MS * 100` (a context multiplication, here exact). -/
def C_CMS : ℚ := dec_mul C_MS 100

/-- `C_MMS = C_MS * 1000`. -/
def C_MMS : ℚ := dec_mul C_MS 1000

/-- `C_UM = C_MS * 1000000`. -/
def C_UM : ℚ := dec_mul C_MS 1000000

/-- `C_NM = C_MS * Decimal("1e9")`. -/
def C_NM : ℚ := dec_mul C_MS (qpowNat 10 9)

/-- `c_units = [C_MS, C_CMS, C_MMS, C_UM, C_NM]`. -/
def c_units : List ℚ := [C_MS, C_CMS, C_MMS, C_UM, C_NM]

/-- `KM_PER_LIGHTYEAR = Decimal("9.461e12")`. -/
def KM_PER_LIGHTYEAR : ℚ := qmul 9461 (qpowNat 10 9)

/-- `MILES_PER_LIGHTYEAR = Decimal("5.879e12")`. -/
def MILES_PER_LIGHTYEAR : ℚ := qmul 5879 (qpowNat 10 9)

/-! ### The relativity engine (source lines 113-126) -/

/-- `time_dilation_factor(velocity_percentage, c)` (source lines 113-120).

`velocity_percentage` is re-wrapped by `Decimal(str(...))`, the identity on
the `Decimal` inputs every caller passes.  The `math.sqrt` call first converts
its `Decimal` argument to binary64; a negative argument raises `ValueError`
and a zero square root makes `1 / 0.0` raise `ZeroDivisionError` (an
`ArithmeticError`); both are caught by the `except` clause and become `None`.
A zero `c` would make `velocity**2 / c**2` raise `DivisionByZero` (also an
`ArithmeticError`, caught); `c ** 2 = 0` exactly when `c = 0`. -/
def time_dilation_factor (velocity_percentage c : ℚ) : Option ℚ :=
  let velocity := dec_mul (dec_div velocity_percentage 100) c
  if c = 0 then none
  else
    let ratio := dec_div (dec_pow2 velocity) (dec_pow2 c)
    let radicand := dec_sub 1 ratio
    let rf := fl64 radicand
    if rf < 0 then none
    else
      let s := fsqrt rf
      if s = 0 then none
      else some (fdiv 1 s)

/-- Exceptions that escape `time_dilation` uncaught. -/
inductive PyExn
  | invalidOperation
  | divisionByZero
deriving DecidableEq

instance {ε α : Type} [DecidableEq ε] [DecidableEq α] : DecidableEq (Except ε α) := fun a b =>
  match a, b with
  | .error e, .error f => if h : e = f then .isTrue (by rw [h]) else .isFalse (by simp [h])
  | .ok x, .ok y => if h : x = y then .isTrue (by rw [h]) else .isFalse (by simp [h])
  | .error _, .ok _ => .isFalse (by simp)
  | .ok _, .error _ => .isFalse (by simp)

/-- `str()` of a binary64 value: the shortest decimal significand that
converts back to the same binary64 value (17 digits always suffice). -/
def floatRepr (q : ℚ) : ℚ :=
  match (List.range 17).find? (fun k => decide (fl64 (roundSig 10 (k + 1) q) = q)) with
  | some k => roundSig 10 (k + 1) q
  | none => q

/-- `time_dilation(time_earth, velocity_percentage, c)` (source lines 122-126).

When `time_dilation_factor` returns `None`, the very first line evaluates
`Decimal(str(None)) = Decimal("None")`, which raises `InvalidOperation`
*before* the `if gamma is None` guard on the next line can fire; the
function has no handler, so the exception escapes.  On the success path the
float gamma is re-read through its `str` representation. -/
def time_dilation (time_earth velocity_percentage c : ℚ) : Except PyExn ℚ :=
  match time_dilation_factor velocity_percentage c with
  | none => .error .invalidOperation
  | some g =>
      let gamma := floatRepr g
      if gamma = 0 then .error .divisionByZero
      else .ok (dec_div time_earth gamma)

/-! ### `safe_decimal_convert` and the `Decimal` string grammar
(source lines 47-69)

`safe_decimal_convert(value)` evaluates `Decimal(str(value))` and converts
`InvalidOperation`/`ValueError`/`TypeError` to `None`.  The callers pass
strings (`str` is then the identity), so the function is the `Decimal`
string constructor, which is exact (the context precision applies to
arithmetic, not construction) and accepts the numeric-string grammar of the
`decimal` module: surrounding whitespace is stripped and all underscores
removed, then, case-insensitively, `sign? (digits [. digits?] [E sign?
digits] | Inf[inity] | s?NaN digits?)` with at least one coefficient digit
in the numeric branch.  The model covers the ASCII alphabet (CPython also
translates non-ASCII unicode digits; no claim depends on those). -/

/-- Decimal digit test. -/
def isDigitCh (c : Char) : Bool := 48 ≤ c.toNat && c.toNat ≤ 57

/-- ASCII whitespace test (the characters Python's `str.strip` removes). -/
def isSpaceCh (c : Char) : Bool :=
  c.toNat = 32 || c.toNat = 9 || c.toNat = 10 || c.toNat = 13 || c.toNat = 11 || c.toNat = 12

/-- ASCII lower-casing. -/
def lowerCh (c : Char) : Char :=
  if 65 ≤ c.toNat ∧ c.toNat ≤ 90 then Char.ofNat (c.toNat + 32) else c

/-- Numeric value of a digit string. -/
def digitsVal (l : List Char) : ℕ := l.foldl (fun a c => 10 * a + (c.toNat - 48)) 0

/-- Strip leading and trailing whitespace. -/
def stripWS (l : List Char) : List Char :=
  ((l.dropWhile isSpaceCh).reverse.dropWhile isSpaceCh).reverse

/-- Consume one optional sign; `true` means negative. -/
def scanSign (l : List Char) : Bool × List Char :=
  if l.head? = some '-' then (true, l.tail)
  else if l.head? = some '+' then (false, l.tail)
  else (false, l)

/-- The value `ip . fp × 10 ^ e` of a parsed coefficient. -/
def mantissaExp (ip fp : List Char) (e : ℤ) : ℚ :=
  qmul ((digitsVal (ip ++ fp) : ℕ) : ℚ) (qpow 10 (e - fp.length))

/-- Fractional digits of the coefficient: the digit run after a leading
point, if any. -/
def fracPart (r1 : List Char) : List Char :=
  if r1.head? = some '.' then r1.tail.takeWhile isDigitCh else []

/-- What remains of the input after the coefficient. -/
def afterCoeff (r1 : List Char) : List Char :=
  if r1.head? = some '.' then r1.tail.dropWhile isDigitCh else r1

/-- The exponent suffix `[eE] sign? digits` followed by the end of input;
`none` when absent or malformed. -/
def scanExpSuffix (r2 : List Char) : Option ℤ :=
  if r2.head? = some 'e' ∨ r2.head? = some 'E' then
    if (scanSign r2.tail).2.takeWhile isDigitCh ≠ [] ∧
        (scanSign r2.tail).2.dropWhile isDigitCh = [] then
      some (if (scanSign r2.tail).1
        then -(digitsVal ((scanSign r2.tail).2.takeWhile isDigitCh) : ℤ)
        else (digitsVal ((scanSign r2.tail).2.takeWhile isDigitCh) : ℤ))
    else none
  else none

/-- The numeric alternative of the `decimal` grammar after the sign:
`digits [. digits?] [eE sign? digits]`, at least one coefficient digit,
nothing left over.  This is also exactly the spec's "valid real-number
literal" (§4.1) without its optional sign. -/
def scanNumeric (l : List Char) : Option ℚ :=
  let ip := l.takeWhile isDigitCh
  let r1 := l.dropWhile isDigitCh
  let fp := fracPart r1
  let r2 := afterCoeff r1
  if ip.length + fp.length = 0 then none
  else if r2 = [] then some (mantissaExp ip fp 0)
  else
    match scanExpSuffix r2 with
    | some e => some (mantissaExp ip fp e)
    | none => none

/-- Values a successful `Decimal` construction denotes.  The sign of an
infinity is kept; NaN payload digits and the sign of a NaN are collapsed
(no claim distinguishes them). -/
inductive PyDec
  | finite (q : ℚ)
  | infinite (neg : Bool)
  | nan
  | snan
deriving DecidableEq

/-- Case-insensitively consume the expected (lowercase) pattern. -/
def matchCI : List Char → List Char → Option (List Char)
  | [], l => some l
  | _ :: _, [] => none
  | p :: ps, c :: cs => if lowerCh c = p then matchCI ps cs else none

/-- The special-value alternatives of the grammar after the sign:
`Inf`, `Infinity`, `s?NaN digits?`, case-insensitive. -/
def scanSpecial (neg : Bool) (l : List Char) : Option PyDec :=
  match matchCI ['i', 'n', 'f'] l with
  | some r =>
    if r = [] then some (.infinite neg)
    else
      match matchCI ['i', 'n', 'i', 't', 'y'] r with
      | some [] => some (.infinite neg)
      | _ => none
  | none =>
    let sg : Bool × List Char :=
      match l with
      | c :: r => if lowerCh c = 's' then (true, r) else (false, l)
      | [] => (false, l)
    match matchCI ['n', 'a', 'n'] sg.2 with
    | some r => if r.all isDigitCh then some (if sg.1 then .snan else .nan) else none
    | none => none

/-- The `Decimal` string constructor. -/
def pyDecimalParse (s : String) : Option PyDec :=
  let l := (stripWS s.data).filter (· != '_')
  let sg := scanSign l
  match scanNumeric sg.2 with
  | some q => some (.finite (if sg.1 then qneg q else q))
  | none => scanSpecial sg.1 sg.2

/-- `safe_decimal_convert(value)` (source lines 47-69) on a string input:
`Decimal(str(value))` with every recognised exception turned into `None`. -/
def safe_decimal_convert (s : String) : Option PyDec := pyDecimalParse s

/-- The spec's "valid real-number literal" (§4.1): an optional sign followed
by digits with an optional decimal point (at least one digit) and an
optional exponent — no whitespace, no underscores, no special values; the
grammar after the sign coincides with `scanNumeric`. -/
def realLiteral? (s : String) : Option ℚ :=
  let sg := scanSign s.data
  (scanNumeric sg.2).map (fun q => if sg.1 then qneg q else q)

/-- Recogniser form of `realLiteral?`. -/
def isRealNumberLiteral (s : String) : Bool := (realLiteral? s).isSome

/-- The characters a real-number literal can contain: digits, the point, the
signs and the exponent markers.  None of them is whitespace or an underscore,
which is why `Decimal`'s stripping phase leaves real-number literals alone. -/
def plainChar (c : Char) : Bool :=
  isDigitCh c || c == '.' || c == '+' || c == '-' || c == 'e' || c == 'E'

/-! ### Velocity validation in `TimeDilationCalculator.calculate`
(source lines 674-682) -/

/-- The two `ValueError`s of the velocity validation, distinguished by their
messages: the generic out-of-range message (line 675) and the near-light-speed
message (lines 679-682). -/
inductive CalcError
  | rangeError
  | nearLightSpeed
deriving DecidableEq

/-- The exact value of the digit string `99.9…9` (202 nines) written at
source lines 677 and 680: `(10^204 - 1) / 10^202 = 100 - 10^-202`. -/
def nearCGuardLiteral : ℚ := mkRat ((10 ^ 204 - 1 : ℕ) : ℤ) (10 ^ 202)

/-- The guard constant the comparison at line 677 actually uses: the source
writes the digit string as a *float* literal, so it is rounded to binary64
before the program ever runs. -/
def nearCGuardFloat : ℚ := fl64 nearCGuardLiteral

/-- The near-c threshold the spec documents (§8): `99.9…9` with 199 nines,
`100 - 10^-199`. -/
def specNearCThreshold : ℚ := mkRat ((10 ^ 201 - 1 : ℕ) : ℤ) (10 ^ 199)

/-- The velocity range validation of `calculate` (source lines 674-682):
first the generic open-interval check, then the near-light-speed check
`velocity >= 99.9…9` against the float guard constant.  (`Decimal`-to-float
comparisons in Python are exact, so the comparison is `ℚ`-comparison against
`nearCGuardFloat`.) -/
def validate_velocity (velocity : ℚ) : Except CalcError Unit :=
  if ¬(0 < velocity ∧ velocity < 100) then .error .rangeError
  else if nearCGuardFloat ≤ velocity then .error .nearLightSpeed
  else .ok ()

/-! ### The gamma computation at uniform working precision (spec side)

For claim C2 the spec asserts that *all* engine arithmetic, including the
square root, runs at the fixed 200-digit working precision.  The following
definition follows the spec's words (§2 "Precision Numeric Type", §4.1, §4.3):
the same data flow as `time_dilation_factor`, but with the square root and
the reciprocal carried out by `Decimal` at the working precision instead of
by binary64 floating point. -/

/-- Gamma as prescribed by the spec's uniform-precision invariant: identical
to `time_dilation_factor` except that the square root and reciprocal are
200-digit `Decimal` operations (`Decimal.sqrt`), failing (`DomainError`)
exactly when the radicand is nonpositive. -/
def gamma_working_precision (velocity_percentage c : ℚ) : Option ℚ :=
  let velocity := dec_mul (dec_div velocity_percentage 100) c
  if c = 0 then none
  else
    let ratio := dec_div (dec_pow2 velocity) (dec_pow2 c)
    let radicand := dec_sub 1 ratio
    if radicand ≤ 0 then none
    else some (dec_div 1 (dec_sqrt radicand))

/-! ### Conversion functions (source lines 128-209) -/

/-- `convert_to_lightyears(value, from_unit)` (source lines 128-151).
`none` models the `ValueError(f"Unsupported unit: ...")`, which the
`except (InvalidOperation, DivisionByZero)` clause does not catch; with the
nonzero constant divisors that clause itself is unreachable. -/
def convert_to_lightyears (value : ℚ) (from_unit : String) : Option ℚ :=
  if from_unit = "ly" then some value
  else if from_unit = "km" then some (dec_div value KM_PER_LIGHTYEAR)
  else if from_unit = "mi" then some (dec_div value MILES_PER_LIGHTYEAR)
  else none

/-- `convert_from_lightyears(lightyears, to_unit)` (source lines 153-176). -/
def convert_from_lightyears (lightyears : ℚ) (to_unit : String) : Option ℚ :=
  if to_unit = "ly" then some lightyears
  else if to_unit = "km" then some (dec_mul lightyears KM_PER_LIGHTYEAR)
  else if to_unit = "mi" then some (dec_mul lightyears MILES_PER_LIGHTYEAR)
  else none

/-- `convert_distance_to_travel_time(distance, velocity_percentage, from_unit)`
(source lines 178-209).  The unit conversion is inlined in the source rather
than calling `convert_to_lightyears`.  A zero `velocity_fraction` makes
`light_years / velocity_fraction` raise `DivisionByZero`, which this
function's `except` clause does catch (→ `None`). -/
def convert_distance_to_travel_time
    (distance velocity_percentage : ℚ) (from_unit : String) : Option ℚ :=
  let ly? : Option ℚ :=
    if from_unit = "ly" then some distance
    else if from_unit = "km" then some (dec_div distance KM_PER_LIGHTYEAR)
    else if from_unit = "mi" then some (dec_div distance MILES_PER_LIGHTYEAR)
    else none
  match ly? with
  | none => none
  | some light_years =>
      let velocity_fraction := dec_div velocity_percentage 100
      if velocity_fraction = 0 then none
      else some (dec_mul (dec_div light_years velocity_fraction) 31557600)

/-! ### Rendering (source lines 19-41 and 71-111) -/

/-- The digit character for `n < 10`. -/
def digitChar (n : ℕ) : Char := Char.ofNat (48 + n)

/-- Decimal digit characters of `n`, most significant first (fuel-counted). -/
def natDigitsAux : ℕ → ℕ → List Char → List Char
  | 0, _, acc => acc
  | fuel + 1, n, acc =>
    if n < 10 then digitChar n :: acc
    else natDigitsAux fuel (n / 10) (digitChar (n % 10) :: acc)

/-- Decimal digit string of a natural number. -/
def natDigits (n : ℕ) : List Char := natDigitsAux (n + 1) n []

/-- `str()` of a natural number. -/
def natStr (n : ℕ) : String := ⟨natDigits n⟩

/-- `str()` of an integer (used for the integral `Decimal` quotients that
`format_time` interpolates: their exponent is 0, so `str` is plain digits). -/
def intStr (m : ℤ) : String := if m < 0 then "-" ++ natStr m.natAbs else natStr m.natAbs

/-- Python's fixed-point formatting `f"{d:.{n}f}"` of a `Decimal` value:
round the magnitude to `n` fractional digits (ties to even, the context
rounding), then print sign, integer digits, a point and exactly `n`
fractional digits (the program formats with `n = 50` and `n = 100`). -/
def formatFixed (q : ℚ) (n : ℕ) : String :=
  let m := (rhe (qmul (qabs q) (qpowNat 10 n))).toNat
  let ds := natDigits m
  let ds := if ds.length < n + 1 then List.replicate (n + 1 - ds.length) '0' ++ ds else ds
  let ip : List Char := ds.take (ds.length - n)
  let fp : List Char := ds.drop (ds.length - n)
  (if q < 0 then "-" else "") ++ ⟨ip⟩ ++ "." ++ ⟨fp⟩

/-- Python's `str.rstrip` with a single-character argument. -/
def rstripChar (s : String) (c : Char) : String :=
  ⟨(s.data.reverse.dropWhile (· == c)).reverse⟩

/-- `SI_PREFIXES` (source lines 19-41): thresholds in descending order. -/
def SI_PREFIXES : List (ℚ × String) :=
  [(qpow 10 30, "Nonillion"), (qpow 10 27, "Octillion"), (qpow 10 24, "Septillion"),
   (qpow 10 21, "Sextillion"), (qpow 10 18, "Quintillion"), (qpow 10 15, "Quadrillion"),
   (qpow 10 12, "Trillion"), (qpow 10 9, "Billion"), (qpow 10 6, "Million"),
   (qpow 10 3, "Thousand"), (qpow 10 0, ""), (qpow 10 (-3), "Milli"),
   (qpow 10 (-6), "Micro"), (qpow 10 (-9), "Nano"), (qpow 10 (-12), "Pico"),
   (qpow 10 (-15), "Femto"), (qpow 10 (-18), "Atto"), (qpow 10 (-21), "Zepto"),
   (qpow 10 (-24), "Yocto"), (qpow 10 (-27), "Ronto"), (qpow 10 (-30), "Quecto")]

/-- `format_large_or_small_number(value)` (source lines 71-80): scan
`SI_PREFIXES` in order, pick the first factor with `abs(value) >= factor`,
format `value / factor` with 50 fractional digits, strip trailing zeros and
a trailing point, append the prefix name (`.strip()` removes the separating
space when the name is empty); below the last threshold, format the value
itself with 100 fractional digits and strip likewise. -/
def format_large_or_small_number (value : ℚ) : String :=
  match SI_PREFIXES.find? (fun fp => decide (fp.1 ≤ qabs value)) with
  | some fp =>
      let formatted := rstripChar (rstripChar (formatFixed (dec_div value fp.1) 50) '0') '.'
      if fp.2 = "" then formatted else formatted ++ " " ++ fp.2
  | none => rstripChar (rstripChar (formatFixed value 100) '0') '.'

/-- `", ".join` of Python. -/
def joinComma : List String → String
  | [] => ""
  | [x] => x
  | x :: xs => x ++ ", " ++ joinComma xs

/-- `format_time(seconds)` (source lines 82-111): successive divide-integer /
remainder by the year, month, day, hour and minute constants, emit the
non-zero components with plural labels, and the remaining seconds (when
non-zero) through `format_large_or_small_number`; `"0 seconds"` when every
component is zero.  The `except` clause (`"Error calculating time"`) only
fires when `Decimal(str(seconds))` fails, impossible for the `Decimal`
inputs modelled here. -/
def format_time (seconds : ℚ) : String :=
  let years := dec_floordiv seconds 31557600
  let s1 := dec_mod seconds 31557600
  let months := dec_floordiv s1 2629800
  let s2 := dec_mod s1 2629800
  let days := dec_floordiv s2 86400
  let s3 := dec_mod s2 86400
  let hours := dec_floordiv s3 3600
  let s4 := dec_mod s3 3600
  let minutes := dec_floordiv s4 60
  let s5 := dec_mod s4 60
  let parts : List String :=
    (if 0 < years then [intStr years ++ " years"] else []) ++
    (if 0 < months then [intStr months ++ " months"] else []) ++
    (if 0 < days then [intStr days ++ " days"] else []) ++
    (if 0 < hours then [intStr hours ++ " hours"] else []) ++
    (if 0 < minutes then [intStr minutes ++ " minutes"] else []) ++
    (if s5 ≠ 0 then [format_large_or_small_number s5 ++ " seconds"] else [])
  if parts = [] then "0 seconds" else joinComma parts

example : ndigits 10 0 = 0 := by decide
example : ndigits 10 9 = 1 := by decide
example : ndigits 10 10 = 2 := by decide
example : qexp 10 (mkRat 1 1000) = -3 := by decide
example : qexp 10 (mkRat 999 1000) = -1 := by decide
example : qexp 2 (100 : ℚ) = 6 := by decide
example : rhe (mkRat 5 2) = 2 := by decide
example : rhe (mkRat 7 2) = 4 := by decide
example : rhe (mkRat 51 20) = 3 := by decide
example : roundSig 10 3 (12345 : ℚ) = 12300 := by decide
example : roundSig 10 3 (12350 : ℚ) = 12400 := by decide
example : roundSig 10 3 (12450 : ℚ) = 12400 := by decide
example : fl64 (mkRat 199 10000) = mkRat 716973060677383 36028797018963968 := by decide
example : isqrt 0 = 0 := by decide
example : isqrt 1 = 1 := by decide
example : isqrt 99 = 9 := by decide
example : isqrt 100 = 10 := by decide
example : isqrt (10 ^ 40) = 10 ^ 20 := by decide
example : C_CMS = 29979245800 := by decide
example : KM_PER_LIGHTYEAR = 9461000000000 := by decide
example : dec_pow2 (mkRat 11251 1000) = decRound (mkRat 126585001 1000000) := by decide
example : time_dilation_factor 99 C_MS = some (mkRat 1995323206703431 281474976710656) := by
  decide
example : time_dilation_factor 50 C_MS = some (mkRat 5200308914369309 4503599627370496) := by
  decide
example : time_dilation_factor 150 C_MS = none := by decide
example : time_dilation_factor 100 C_MS = none := by decide
example : time_dilation 1 150 C_MS = .error .invalidOperation := by decide
example : nearCGuardFloat = 100 := by decide
example : validate_velocity specNearCThreshold = .ok () := by decide
example : validate_velocity 99 = .ok () := by decide
example : validate_velocity 100 = .error .rangeError := by decide
example : time_dilation_factor specNearCThreshold C_MS = none := by decide
example : time_dilation_factor (mkRat ((10 ^ 201 - 12 : ℕ) : ℤ) (10 ^ 199)) C_MS = none := by
  decide
example : gamma_working_precision 99 C_MS =
    some (mkRat 553813441412762422472996376055171422657769634469371932757038825526645004210192728218940823140818011631114611568997882166549799273218709505088829351259367291043615698828211112306619295284512029918091 (78125 * 10 ^ 192)) := by
  decide
example : convert_distance_to_travel_time (mkRat 17 4) 99 "ly" =
    some (mkRat 2709490909090909090909090909090909090909090909090909090909090909090909090909090909090909090909090909090909090909090909090909090909090909090909090909090909090909090909090909090909090909090909090909091 (2 * 10 ^ 190)) := by
  decide
example : (convert_to_lightyears 6 "mi").bind (convert_from_lightyears · "mi") =
    some (mkRat ((3 * 10 ^ 199 + 1 : ℕ) : ℤ) (5 * 10 ^ 198)) := by decide
example : natStr 31557600 = "31557600" := by decide
example : intStr (-12) = "-12" := by decide
example : formatFixed (mkRat 5 4) 3 = "1.250" := by decide
example : format_large_or_small_number 299792458 = "299.792458 Million" := by decide
example : format_time 0 = "0 seconds" := by decide
example : format_time 31557600 = "1 years" := by decide
example : pyDecimalParse "NaN" = some .nan := by decide
example : pyDecimalParse "-sNAN123" = some .snan := by decide
example : pyDecimalParse "Infinity" = some (.infinite false) := by decide
example : pyDecimalParse "-inf" = some (.infinite true) := by decide
example : pyDecimalParse "1_0" = some (.finite 10) := by decide
example : pyDecimalParse " 12 " = some (.finite 12) := by decide
example : pyDecimalParse "123.456" = some (.finite (mkRat 123456 1000)) := by decide
example : pyDecimalParse "+1E+3" = some (.finite 1000) := by decide
example : pyDecimalParse "5." = some (.finite 5) := by decide
example : pyDecimalParse ".5" = some (.finite (mkRat 1 2)) := by decide
example : pyDecimalParse "-5.e3" = some (.finite (-5000)) := by decide
example : pyDecimalParse "abc" = none := by decide
example : pyDecimalParse "" = none := by decide
example : pyDecimalParse "1e" = none := by decide
example : pyDecimalParse "." = none := by decide
example : pyDecimalParse "1.2.3" = none := by decide
example : isRealNumberLiteral "123.456" = true := by decide
example : isRealNumberLiteral "NaN" = false := by decide
example : isRealNumberLiteral " 12 " = false := by decide

/-! ## Lemma layer -/

/-! ### Round-to-nearest, ties to even -/

theorem half_eq : (mkRat 1 2 : ℚ) = 1 / 2 := by
  rw [Rat.mkRat_eq_divInt, Rat.divInt_eq_div]; norm_num

/-- `rhe` in standard vocabulary. -/
theorem rhe_def (q : ℚ) :
    rhe q = if q - ⌊q⌋ < 1 / 2 then ⌊q⌋
      else if 1 / 2 < q - ⌊q⌋ then ⌊q⌋ + 1
      else if ⌊q⌋ % 2 = 0 then ⌊q⌋ else ⌊q⌋ + 1 := by
  rw [rhe, qsub_eq, qfloor_eq, half_eq]

theorem rhe_intCast (m : ℤ) : rhe (m : ℚ) = m := by
  rw [rhe_def, Int.floor_intCast]
  norm_num

theorem rhe_sub_abs (q : ℚ) : |(rhe q : ℚ) - q| ≤ 1 / 2 := by
  have h0 : (0 : ℚ) ≤ q - ⌊q⌋ := sub_nonneg.2 (Int.floor_le q)
  have h1 : q - ⌊q⌋ < 1 := by
    have := Int.lt_floor_add_one q
    push_cast at this
    linarith
  rw [rhe_def]
  split_ifs with hlt hgt hev
  · rw [abs_sub_comm, abs_of_nonneg h0]; linarith
  · push_cast
    rw [abs_of_nonneg (by linarith)]
    linarith
  · rw [abs_sub_comm, abs_of_nonneg h0]; linarith
  · push_cast
    rw [abs_of_nonneg (by linarith)]
    linarith

theorem rhe_floor_le (q : ℚ) : ⌊q⌋ ≤ rhe q := by
  rw [rhe_def]; split_ifs <;> omega

theorem rhe_le_floor_add_one (q : ℚ) : rhe q ≤ ⌊q⌋ + 1 := by
  rw [rhe_def]; split_ifs <;> omega

theorem rhe_nonneg {q : ℚ} (h : 0 ≤ q) : 0 ≤ rhe q :=
  le_trans (Int.floor_nonneg.2 h) (rhe_floor_le q)

theorem rhe_nonpos {q : ℚ} (h : q ≤ 0) : rhe q ≤ 0 := by
  rcases eq_or_lt_of_le h with h' | h'
  · subst h'
    have h0 : rhe 0 = 0 := by simpa using rhe_intCast 0
    exact le_of_eq h0
  · have h1 : ⌊q⌋ < 0 := Int.floor_lt.2 (by exact_mod_cast h')
    have h2 := rhe_le_floor_add_one q
    omega

/-! ### The floor logarithm -/

theorem ndigitsAux_zero (b : ℕ) : ∀ fuel, ndigitsAux b fuel 0 = 0
  | 0 => rfl
  | fuel + 1 => by rw [ndigitsAux, if_pos rfl]

theorem ndigitsAux_spec {b : ℕ} (hb : 2 ≤ b) :
    ∀ fuel n, 1 ≤ n → n ≤ fuel →
      b ^ (ndigitsAux b fuel n - 1) ≤ n ∧ n < b ^ ndigitsAux b fuel n := by
  intro fuel
  induction fuel with
  | zero => intro n h1 h2; omega
  | succ fuel ih =>
    intro n h1 h2
    rw [ndigitsAux, if_neg (by omega)]
    by_cases hnb : n < b
    · have hdiv : n / b = 0 := Nat.div_eq_of_lt hnb
      rw [hdiv, ndigitsAux_zero]
      constructor
      · simpa using h1
      · simpa using hnb
    · push_neg at hnb
      have hb0 : 0 < b := by omega
      have h1' : 1 ≤ n / b := (Nat.one_le_div_iff hb0).2 hnb
      have h2' : n / b ≤ fuel := by
        have := Nat.div_lt_self (by omega : 0 < n) (by omega : 1 < b)
        omega
      obtain ⟨hlo, hhi⟩ := ih (n / b) h1' h2'
      set d := ndigitsAux b fuel (n / b) with hd
      have hd1 : 1 ≤ d := by
        rcases Nat.eq_zero_or_pos d with h0 | h0
        · rw [h0, pow_zero] at hhi; omega
        · exact h0
      constructor
      · have hpow : b ^ d = b ^ (d - 1) * b := by
          conv_lhs => rw [show d = (d - 1) + 1 by omega]
          rw [pow_succ]
        calc b ^ (d + 1 - 1) = b ^ (d - 1) * b := by rw [Nat.add_sub_cancel, hpow]
        _ ≤ (n / b) * b := Nat.mul_le_mul_right b hlo
        _ ≤ n := Nat.div_mul_le_self n b
      · calc n < b ^ d * b := (Nat.div_lt_iff_lt_mul hb0).1 hhi
        _ = b ^ (d + 1) := (pow_succ b d).symm

theorem ndigits_spec {b n : ℕ} (hb : 2 ≤ b) (hn : 1 ≤ n) :
    b ^ (ndigits b n - 1) ≤ n ∧ n < b ^ ndigits b n :=
  ndigitsAux_spec hb (n + 1) n hn (by omega)

theorem ndigits_pos {b n : ℕ} (hb : 2 ≤ b) (hn : 1 ≤ n) : 1 ≤ ndigits b n := by
  obtain ⟨-, hhi⟩ := ndigits_spec hb hn
  rcases Nat.eq_zero_or_pos (ndigits b n) with h0 | h0
  · rw [h0, pow_zero] at hhi; omega
  · exact h0

theorem qexp_spec {b : ℕ} (hb : 2 ≤ b) {q : ℚ} (hq : q ≠ 0) :
    (b : ℚ) ^ qexp b q ≤ |q| ∧ |q| < (b : ℚ) ^ (qexp b q + 1) := by
  have hb1 : (1 : ℚ) < (b : ℚ) := by exact_mod_cast (by omega : 1 < b)
  have habs : 0 < |q| := abs_pos.2 hq
  rw [qexp, qabs_eq]
  by_cases hge : 1 ≤ |q|
  · rw [if_pos hge, qfloor_eq]
    set m := ⌊|q|⌋ with hm
    have hm1 : 1 ≤ m := Int.le_floor.2 (by exact_mod_cast hge)
    have hnt1 : 1 ≤ m.toNat := by omega
    obtain ⟨hlo, hhi⟩ := ndigits_spec hb hnt1
    set D := ndigits b m.toNat with hD
    have hD1 : 1 ≤ D := ndigits_pos hb hnt1
    have hmq : (m : ℚ) ≤ |q| := Int.floor_le |q|
    have hmq1 : |q| < (m : ℚ) + 1 := Int.lt_floor_add_one |q|
    constructor
    · have hc : ((b : ℚ)) ^ ((D : ℤ) - 1) = ((b ^ (D - 1) : ℕ) : ℚ) := by
        rw [show (D : ℤ) - 1 = ((D - 1 : ℕ) : ℤ) by omega, zpow_natCast]
        push_cast
        rfl
      rw [hc]
      calc ((b ^ (D - 1) : ℕ) : ℚ) ≤ (m.toNat : ℚ) := by exact_mod_cast hlo
      _ = (m : ℚ) := by
          norm_cast
          omega
      _ ≤ |q| := hmq
    · have hc : ((b : ℚ)) ^ ((D : ℤ) - 1 + 1) = ((b ^ D : ℕ) : ℚ) := by
        rw [sub_add_cancel, zpow_natCast]
        push_cast
        rfl
      rw [hc]
      calc |q| < (m : ℚ) + 1 := hmq1
      _ = (m.toNat : ℚ) + 1 := by
          norm_cast
          omega
      _ ≤ ((b ^ D : ℕ) : ℚ) := by exact_mod_cast hhi
  · push_neg at hge
    rw [if_neg (not_le.2 hge), qceil_eq, qinv_eq]
    have hx1 : 1 < |q|⁻¹ := (one_lt_inv₀ habs).2 hge
    set x := |q|⁻¹ with hx
    have hx0 : 0 < x := by positivity
    set c := ⌈x⌉ with hc
    have hc2 : 2 ≤ c := by
      have h1 : (1 : ℚ) < (c : ℚ) := lt_of_lt_of_le hx1 (Int.le_ceil x)
      have h2 : (1 : ℤ) < c := by exact_mod_cast h1
      omega
    set m := c.toNat - 1 with hm
    have hm1 : 1 ≤ m := by omega
    obtain ⟨hlo, hhi⟩ := ndigits_spec hb hm1
    set D := ndigits b m with hD
    have hD1 : 1 ≤ D := ndigits_pos hb hm1
    have hmc : (m : ℚ) = (c : ℚ) - 1 := by
      have : (m : ℤ) = c - 1 := by omega
      exact_mod_cast this
    constructor
    · have hxle : x ≤ ((b ^ D : ℕ) : ℚ) := by
        calc x ≤ (c : ℚ) := Int.le_ceil x
        _ = (m : ℚ) + 1 := by rw [hmc]; ring
        _ ≤ ((b ^ D : ℕ) : ℚ) := by exact_mod_cast hhi
      have hinv : ((b ^ D : ℕ) : ℚ)⁻¹ ≤ x⁻¹ :=
        inv_anti₀ hx0 hxle
      rw [hx, inv_inv] at hinv
      calc (b : ℚ) ^ (-(D : ℤ)) = ((b ^ D : ℕ) : ℚ)⁻¹ := by
            rw [zpow_neg, zpow_natCast]; push_cast; rfl
      _ ≤ |q| := hinv
    · have hbx : ((b ^ (D - 1) : ℕ) : ℚ) < x := by
        calc ((b ^ (D - 1) : ℕ) : ℚ) ≤ (m : ℚ) := by exact_mod_cast hlo
        _ = (c : ℚ) - 1 := hmc
        _ < x := by
            have := Int.ceil_lt_add_one x
            linarith
      have hpow0 : (0 : ℚ) < ((b ^ (D - 1) : ℕ) : ℚ) := by positivity
      have hinv : x⁻¹ < ((b ^ (D - 1) : ℕ) : ℚ)⁻¹ := by
        exact inv_strictAnti₀ hpow0 hbx
      rw [hx, inv_inv] at hinv
      calc |q| < ((b ^ (D - 1) : ℕ) : ℚ)⁻¹ := hinv
      _ = (b : ℚ) ^ (-(D : ℤ) + 1) := by
          rw [show -(D : ℤ) + 1 = -((D - 1 : ℕ) : ℤ) by omega, zpow_neg, zpow_natCast]
          push_cast
          rfl

theorem qexp_unique {b : ℕ} (hb : 2 ≤ b) {q : ℚ} (hq : q ≠ 0) {e : ℤ}
    (h1 : (b : ℚ) ^ e ≤ |q|) (h2 : |q| < (b : ℚ) ^ (e + 1)) : qexp b q = e := by
  have hb1 : (1 : ℚ) ≤ (b : ℚ) := by exact_mod_cast (by omega : 1 ≤ b)
  obtain ⟨h3, h4⟩ := qexp_spec hb hq
  by_contra hne
  rcases lt_or_gt_of_ne hne with hlt | hgt
  · have := zpow_le_zpow_right₀ hb1 (by omega : qexp b q + 1 ≤ e)
    linarith
  · have := zpow_le_zpow_right₀ hb1 (by omega : e + 1 ≤ qexp b q)
    linarith

/-! ### Significant-digit rounding: bounds -/

theorem roundSig_zero (b p : ℕ) : roundSig b p 0 = 0 := by
  rw [roundSig, if_pos rfl]

theorem roundSig_eq (b p : ℕ) {q : ℚ} (hq : q ≠ 0) :
    roundSig b p q =
      (rhe (q / (b : ℚ) ^ (qexp b q - (p - 1 : ℕ))) : ℚ) *
        (b : ℚ) ^ (qexp b q - (p - 1 : ℕ)) := by
  rw [roundSig, if_neg hq, qmul_eq, qdiv_eq, qpow_eq]
  norm_cast

theorem cast_b_pos {b : ℕ} (hb : 2 ≤ b) : (0 : ℚ) < (b : ℚ) := by
  exact_mod_cast (by omega : 0 < b)

theorem zpow_split {b : ℕ} (hb : 2 ≤ b) (n : ℕ) (t : ℤ) :
    ((b ^ n : ℕ) : ℚ) * (b : ℚ) ^ t = (b : ℚ) ^ ((n : ℤ) + t) := by
  push_cast
  rw [← zpow_natCast (b : ℚ) n, ← zpow_add₀ (ne_of_gt (cast_b_pos hb))]

theorem roundSig_y_bounds {b p : ℕ} (hb : 2 ≤ b) (hp : 1 ≤ p) {q : ℚ} (hq : 0 < q) :
    ((b ^ (p - 1) : ℕ) : ℚ) ≤ q / (b : ℚ) ^ (qexp b q - (p - 1 : ℕ)) ∧
      q / (b : ℚ) ^ (qexp b q - (p - 1 : ℕ)) < ((b ^ p : ℕ) : ℚ) := by
  have hb0 := cast_b_pos hb
  obtain ⟨h1, h2⟩ := qexp_spec hb hq.ne'
  rw [abs_of_pos hq] at h1 h2
  set e := qexp b q with he
  have hBpos : (0 : ℚ) < (b : ℚ) ^ (e - (p - 1 : ℕ)) := zpow_pos hb0 _
  constructor
  · rw [le_div_iff₀ hBpos]
    calc ((b ^ (p - 1) : ℕ) : ℚ) * (b : ℚ) ^ (e - (p - 1 : ℕ)) = (b : ℚ) ^ e := by
          rw [zpow_split hb]
          congr 1
          omega
    _ ≤ q := h1
  · rw [div_lt_iff₀ hBpos]
    calc q < (b : ℚ) ^ (e + 1) := h2
    _ = ((b ^ p : ℕ) : ℚ) * (b : ℚ) ^ (e - (p - 1 : ℕ)) := by
          rw [zpow_split hb]
          congr 1
          omega

theorem roundSig_pos {b p : ℕ} (hb : 2 ≤ b) (hp : 1 ≤ p) {q : ℚ} (hq : 0 < q) :
    0 < roundSig b p q := by
  rw [roundSig_eq b p hq.ne']
  obtain ⟨hy1, -⟩ := roundSig_y_bounds hb hp hq
  have hb0 := cast_b_pos hb
  have hBpos : (0 : ℚ) < (b : ℚ) ^ (qexp b q - (p - 1 : ℕ)) := zpow_pos hb0 _
  have hone : (1 : ℚ) ≤ ((b ^ (p - 1) : ℕ) : ℚ) := by
    exact_mod_cast Nat.one_le_pow _ _ (by omega)
  have hy : (1 : ℚ) ≤ q / (b : ℚ) ^ (qexp b q - (p - 1 : ℕ)) := le_trans hone hy1
  have hm : 1 ≤ rhe (q / (b : ℚ) ^ (qexp b q - (p - 1 : ℕ))) := by
    have h1 := rhe_floor_le (q / (b : ℚ) ^ (qexp b q - (p - 1 : ℕ)))
    have h2 : (1 : ℤ) ≤ ⌊q / (b : ℚ) ^ (qexp b q - (p - 1 : ℕ))⌋ := by
      rw [Int.le_floor]
      exact_mod_cast hy
    omega
  have : (0 : ℚ) < (rhe (q / (b : ℚ) ^ (qexp b q - (p - 1 : ℕ))) : ℚ) := by
    exact_mod_cast hm
  exact mul_pos this hBpos

theorem roundSig_nonneg {b p : ℕ} (hb : 2 ≤ b) (hp : 1 ≤ p) {q : ℚ} (hq : 0 ≤ q) :
    0 ≤ roundSig b p q := by
  rcases eq_or_lt_of_le hq with h | h
  · rw [← h, roundSig_zero]
  · exact (roundSig_pos hb hp h).le

theorem roundSig_nonpos {b p : ℕ} {q : ℚ} (hq : q ≤ 0) : roundSig b p q ≤ 0 := by
  rcases eq_or_lt_of_le hq with h | h
  · rw [h, roundSig_zero]
  · rw [roundSig_eq b p h.ne]
    have hb0 : (0 : ℚ) ≤ (b : ℚ) := by positivity
    have hBpos : (0 : ℚ) ≤ (b : ℚ) ^ (qexp b q - (p - 1 : ℕ)) := zpow_nonneg hb0 _
    have hy : q / (b : ℚ) ^ (qexp b q - (p - 1 : ℕ)) ≤ 0 := by
      rw [div_eq_mul_inv]
      exact mul_nonpos_of_nonpos_of_nonneg h.le (inv_nonneg.2 hBpos)
    have hm := rhe_nonpos hy
    have : (rhe (q / (b : ℚ) ^ (qexp b q - (p - 1 : ℕ))) : ℚ) ≤ 0 := by exact_mod_cast hm
    exact mul_nonpos_of_nonpos_of_nonneg this hBpos

theorem roundSig_le_pow {b p : ℕ} (hb : 2 ≤ b) (hp : 1 ≤ p) {q : ℚ} (hq : 0 < q) :
    roundSig b p q ≤ (b : ℚ) ^ (qexp b q + 1) := by
  rw [roundSig_eq b p hq.ne']
  obtain ⟨-, hy2⟩ := roundSig_y_bounds hb hp hq
  have hb0 := cast_b_pos hb
  have hBpos : (0 : ℚ) < (b : ℚ) ^ (qexp b q - (p - 1 : ℕ)) := zpow_pos hb0 _
  have hm : rhe (q / (b : ℚ) ^ (qexp b q - (p - 1 : ℕ))) ≤ ((b ^ p : ℕ) : ℤ) := by
    have h1 := rhe_le_floor_add_one (q / (b : ℚ) ^ (qexp b q - (p - 1 : ℕ)))
    have h2 : ⌊q / (b : ℚ) ^ (qexp b q - (p - 1 : ℕ))⌋ < ((b ^ p : ℕ) : ℤ) := by
      rw [Int.floor_lt]
      exact_mod_cast hy2
    omega
  calc (rhe (q / (b : ℚ) ^ (qexp b q - (p - 1 : ℕ))) : ℚ) *
        (b : ℚ) ^ (qexp b q - (p - 1 : ℕ))
      ≤ ((b ^ p : ℕ) : ℚ) * (b : ℚ) ^ (qexp b q - (p - 1 : ℕ)) := by
        apply mul_le_mul_of_nonneg_right _ hBpos.le
        exact_mod_cast hm
  _ = (b : ℚ) ^ (qexp b q + 1) := by
      rw [zpow_split hb]
      congr 1
      omega

theorem roundSig_ge_pow {b p : ℕ} (hb : 2 ≤ b) (hp : 1 ≤ p) {q : ℚ} (hq : 0 < q) :
    (b : ℚ) ^ qexp b q ≤ roundSig b p q := by
  rw [roundSig_eq b p hq.ne']
  obtain ⟨hy1, -⟩ := roundSig_y_bounds hb hp hq
  have hb0 := cast_b_pos hb
  have hBpos : (0 : ℚ) < (b : ℚ) ^ (qexp b q - (p - 1 : ℕ)) := zpow_pos hb0 _
  have hm : ((b ^ (p - 1) : ℕ) : ℤ) ≤ rhe (q / (b : ℚ) ^ (qexp b q - (p - 1 : ℕ))) := by
    have h1 := rhe_floor_le (q / (b : ℚ) ^ (qexp b q - (p - 1 : ℕ)))
    have h2 : ((b ^ (p - 1) : ℕ) : ℤ) ≤ ⌊q / (b : ℚ) ^ (qexp b q - (p - 1 : ℕ))⌋ := by
      rw [Int.le_floor]
      exact_mod_cast hy1
    omega
  calc (b : ℚ) ^ qexp b q
      = ((b ^ (p - 1) : ℕ) : ℚ) * (b : ℚ) ^ (qexp b q - (p - 1 : ℕ)) := by
        rw [zpow_split hb]
        congr 1
        omega
  _ ≤ (rhe (q / (b : ℚ) ^ (qexp b q - (p - 1 : ℕ))) : ℚ) *
        (b : ℚ) ^ (qexp b q - (p - 1 : ℕ)) := by
        apply mul_le_mul_of_nonneg_right _ hBpos.le
        exact_mod_cast hm

theorem qexp_one {b : ℕ} (hb : 2 ≤ b) : qexp b (1 : ℚ) = 0 := by
  refine qexp_unique hb one_ne_zero ?_ ?_
  · simp
  · rw [abs_one, zero_add, zpow_one]
    exact_mod_cast (show 1 < b by omega)

theorem roundSig_one {b p : ℕ} (hb : 2 ≤ b) (hp : 1 ≤ p) : roundSig b p 1 = 1 := by
  have hb0 := cast_b_pos hb
  rw [roundSig_eq b p one_ne_zero, qexp_one hb]
  have hy : (1 : ℚ) / (b : ℚ) ^ ((0 : ℤ) - (p - 1 : ℕ)) = ((b ^ (p - 1) : ℕ) : ℚ) := by
    rw [eq_comm, eq_div_iff (zpow_ne_zero _ (ne_of_gt hb0)), zpow_split hb]
    rw [show ((p - 1 : ℕ) : ℤ) + ((0 : ℤ) - (p - 1 : ℕ)) = 0 by omega, zpow_zero]
  rw [hy]
  have hcast : ((b ^ (p - 1) : ℕ) : ℚ) = (((b ^ (p - 1) : ℕ) : ℤ) : ℚ) := by push_cast; rfl
  rw [hcast, rhe_intCast, ← hcast, zpow_split hb]
  rw [show ((p - 1 : ℕ) : ℤ) + ((0 : ℤ) - (p - 1 : ℕ)) = 0 by omega, zpow_zero]

theorem roundSig_le_one {b p : ℕ} (hb : 2 ≤ b) (hp : 1 ≤ p) {q : ℚ} (hq : q ≤ 1) :
    roundSig b p q ≤ 1 := by
  rcases le_or_lt q 0 with h0 | h0
  · exact le_trans (roundSig_nonpos h0) zero_le_one
  · rcases eq_or_lt_of_le hq with h1 | h1
    · rw [h1, roundSig_one hb hp]
    · have hb1 : (1 : ℚ) ≤ (b : ℚ) := by exact_mod_cast (by omega : 1 ≤ b)
      have he : qexp b q + 1 ≤ 0 := by
        by_contra hcon
        push_neg at hcon
        obtain ⟨hlo, -⟩ := qexp_spec hb h0.ne'
        rw [abs_of_pos h0] at hlo
        have : (1 : ℚ) ≤ (b : ℚ) ^ qexp b q := by
          calc (1 : ℚ) = (b : ℚ) ^ (0 : ℤ) := (zpow_zero _).symm
          _ ≤ (b : ℚ) ^ qexp b q := zpow_le_zpow_right₀ hb1 (by omega)
        linarith
      calc roundSig b p q ≤ (b : ℚ) ^ (qexp b q + 1) := roundSig_le_pow hb hp h0
      _ ≤ (b : ℚ) ^ (0 : ℤ) := zpow_le_zpow_right₀ hb1 he
      _ = 1 := zpow_zero _

theorem roundSig_ge_one {b p : ℕ} (hb : 2 ≤ b) (hp : 1 ≤ p) {q : ℚ} (hq : 1 ≤ q) :
    1 ≤ roundSig b p q := by
  have h0 : (0 : ℚ) < q := lt_of_lt_of_le one_pos hq
  have hb1 : (1 : ℚ) ≤ (b : ℚ) := by exact_mod_cast (by omega : 1 ≤ b)
  have he : 0 ≤ qexp b q := by
    by_contra hcon
    push_neg at hcon
    obtain ⟨-, hhi⟩ := qexp_spec hb h0.ne'
    rw [abs_of_pos h0] at hhi
    have : (b : ℚ) ^ (qexp b q + 1) ≤ 1 := by
      calc (b : ℚ) ^ (qexp b q + 1) ≤ (b : ℚ) ^ (0 : ℤ) := zpow_le_zpow_right₀ hb1 (by omega)
      _ = 1 := zpow_zero _
    linarith
  calc (1 : ℚ) = (b : ℚ) ^ (0 : ℤ) := (zpow_zero _).symm
  _ ≤ (b : ℚ) ^ qexp b q := zpow_le_zpow_right₀ hb1 he
  _ ≤ roundSig b p q := roundSig_ge_pow hb hp h0

theorem roundSig_rel {b p : ℕ} (hb : 2 ≤ b) (hp : 1 ≤ p) (q : ℚ) :
    |roundSig b p q - q| ≤ (b : ℚ) ^ (1 - (p : ℤ)) / 2 * |q| := by
  rcases eq_or_ne q 0 with h0 | h0
  · rw [h0, roundSig_zero]
    simp
  · have hb0 := cast_b_pos hb
    obtain ⟨hlo, -⟩ := qexp_spec hb h0
    set e := qexp b q with he
    have hBpos : (0 : ℚ) < (b : ℚ) ^ (e - (p - 1 : ℕ)) := zpow_pos hb0 _
    rw [roundSig_eq b p h0]
    have hy : (rhe (q / (b : ℚ) ^ (e - (p - 1 : ℕ))) : ℚ) * (b : ℚ) ^ (e - (p - 1 : ℕ)) - q
        = ((rhe (q / (b : ℚ) ^ (e - (p - 1 : ℕ))) : ℚ) - q / (b : ℚ) ^ (e - (p - 1 : ℕ))) *
            (b : ℚ) ^ (e - (p - 1 : ℕ)) := by
      field_simp
    rw [hy, abs_mul, abs_of_pos hBpos]
    calc |(rhe (q / (b : ℚ) ^ (e - (p - 1 : ℕ))) : ℚ) - q / (b : ℚ) ^ (e - (p - 1 : ℕ))| *
          (b : ℚ) ^ (e - (p - 1 : ℕ))
        ≤ 1 / 2 * (b : ℚ) ^ (e - (p - 1 : ℕ)) := by
          apply mul_le_mul_of_nonneg_right (rhe_sub_abs _) hBpos.le
    _ = (b : ℚ) ^ (1 - (p : ℤ)) / 2 * (b : ℚ) ^ e := by
        rw [div_mul_eq_mul_div, one_mul, div_mul_eq_mul_div, ← zpow_add₀ (ne_of_gt hb0)]
        congr 2
        omega
    _ ≤ (b : ℚ) ^ (1 - (p : ℤ)) / 2 * |q| := by
        apply mul_le_mul_of_nonneg_left hlo
        positivity

theorem qexp_mul_zpow {b : ℕ} (hb : 2 ≤ b) {q : ℚ} (hq : q ≠ 0) (k : ℤ) :
    qexp b (q * (b : ℚ) ^ k) = qexp b q + k := by
  have hb0 := cast_b_pos hb
  have hk : (0 : ℚ) < (b : ℚ) ^ k := zpow_pos hb0 k
  obtain ⟨h1, h2⟩ := qexp_spec hb hq
  refine qexp_unique hb (mul_ne_zero hq (ne_of_gt hk)) ?_ ?_
  · rw [abs_mul, abs_of_pos hk]
    calc (b : ℚ) ^ (qexp b q + k) = (b : ℚ) ^ qexp b q * (b : ℚ) ^ k :=
        zpow_add₀ (ne_of_gt hb0) _ _
    _ ≤ |q| * (b : ℚ) ^ k := mul_le_mul_of_nonneg_right h1 hk.le
  · rw [abs_mul, abs_of_pos hk]
    calc |q| * (b : ℚ) ^ k < (b : ℚ) ^ (qexp b q + 1) * (b : ℚ) ^ k :=
        mul_lt_mul_of_pos_right h2 hk
    _ = (b : ℚ) ^ (qexp b q + k + 1) := by
        rw [← zpow_add₀ (ne_of_gt hb0)]
        congr 1
        omega

theorem roundSig_scale {b p : ℕ} (hb : 2 ≤ b) (q : ℚ) (k : ℤ) :
    roundSig b p (q * (b : ℚ) ^ k) = roundSig b p q * (b : ℚ) ^ k := by
  have hb0 := cast_b_pos hb
  rcases eq_or_ne q 0 with h0 | h0
  · rw [h0, zero_mul, roundSig_zero, zero_mul]
  · have hk : (b : ℚ) ^ k ≠ 0 := zpow_ne_zero k (ne_of_gt hb0)
    rw [roundSig_eq b p (mul_ne_zero h0 hk), roundSig_eq b p h0, qexp_mul_zpow hb h0 k]
    have hsplit : (b : ℚ) ^ (qexp b q + k - (p - 1 : ℕ))
        = (b : ℚ) ^ (qexp b q - (p - 1 : ℕ)) * (b : ℚ) ^ k := by
      rw [← zpow_add₀ (ne_of_gt hb0)]
      congr 1
      omega
    have harg : q * (b : ℚ) ^ k / ((b : ℚ) ^ (qexp b q - (p - 1 : ℕ)) * (b : ℚ) ^ k)
        = q / (b : ℚ) ^ (qexp b q - (p - 1 : ℕ)) :=
      mul_div_mul_right _ _ hk
    rw [hsplit, harg, ← mul_assoc]

theorem roundSig_idem {b p : ℕ} (hb : 2 ≤ b) (hp : 1 ≤ p) {q : ℚ} (hq : 0 < q) :
    roundSig b p (roundSig b p q) = roundSig b p q := by
  have hb0 := cast_b_pos hb
  set e := qexp b q with he
  set B := (b : ℚ) ^ (e - (p - 1 : ℕ)) with hB
  have hBpos : (0 : ℚ) < B := zpow_pos hb0 _
  set y := q / B with hy
  set m := rhe y with hm
  have hr : roundSig b p q = (m : ℚ) * B := roundSig_eq b p hq.ne'
  obtain ⟨hy1, hy2⟩ := roundSig_y_bounds hb hp hq
  have hmlo : ((b ^ (p - 1) : ℕ) : ℤ) ≤ m := by
    have h2 : ((b ^ (p - 1) : ℕ) : ℤ) ≤ ⌊y⌋ := by
      rw [Int.le_floor]
      exact_mod_cast hy1
    have := rhe_floor_le y
    omega
  have hmhi : m ≤ ((b ^ p : ℕ) : ℤ) := by
    have h2 : ⌊y⌋ < ((b ^ p : ℕ) : ℤ) := by
      rw [Int.floor_lt]
      exact_mod_cast hy2
    have := rhe_le_floor_add_one y
    omega
  have hm0 : (0 : ℚ) < (m : ℚ) := by
    have h1 : (0 : ℤ) < m := lt_of_lt_of_le (by positivity) hmlo
    exact_mod_cast h1
  have hrpos : (0 : ℚ) < (m : ℚ) * B := mul_pos hm0 hBpos
  rcases lt_or_eq_of_le hmhi with hlt | heq
  · have hexp : qexp b ((m : ℚ) * B) = e := by
      refine qexp_unique hb hrpos.ne' ?_ ?_
      · rw [abs_of_pos hrpos]
        calc (b : ℚ) ^ e = ((b ^ (p - 1) : ℕ) : ℚ) * B := by
              rw [hB, zpow_split hb]
              congr 1
              omega
        _ ≤ (m : ℚ) * B := by
              apply mul_le_mul_of_nonneg_right _ hBpos.le
              exact_mod_cast hmlo
      · rw [abs_of_pos hrpos]
        calc (m : ℚ) * B < ((b ^ p : ℕ) : ℚ) * B := by
              apply mul_lt_mul_of_pos_right _ hBpos
              exact_mod_cast hlt
        _ = (b : ℚ) ^ (e + 1) := by
              rw [hB, zpow_split hb]
              congr 1
              omega
    rw [hr]
    rw [roundSig_eq b p hrpos.ne', hexp, ← hB]
    have harg : (m : ℚ) * B / B = (m : ℚ) := by field_simp
    rw [harg, rhe_intCast]
  · have hrval : (m : ℚ) * B = (b : ℚ) ^ (e + 1) := by
      have : (m : ℚ) = ((b ^ p : ℕ) : ℚ) := by exact_mod_cast heq
      rw [this, hB, zpow_split hb]
      congr 1
      omega
    have hexp : qexp b ((m : ℚ) * B) = e + 1 := by
      refine qexp_unique hb hrpos.ne' ?_ ?_
      · rw [abs_of_pos hrpos, hrval]
      · rw [abs_of_pos hrpos, hrval]
        apply zpow_lt_zpow_right₀ (show (1 : ℚ) < (b : ℚ) by exact_mod_cast (show 1 < b by omega))
        omega
    rw [hr]
    rw [roundSig_eq b p hrpos.ne', hexp]
    have harg : (m : ℚ) * B / (b : ℚ) ^ (e + 1 - (p - 1 : ℕ))
        = (((b ^ (p - 1) : ℕ) : ℤ) : ℚ) := by
      rw [hrval, div_eq_iff (zpow_ne_zero _ (ne_of_gt hb0))]
      push_cast
      rw [← zpow_natCast (b : ℚ) (p - 1), ← zpow_add₀ (ne_of_gt hb0)]
      congr 1
      omega
    rw [harg, rhe_intCast, hrval]
    push_cast
    rw [← zpow_natCast (b : ℚ) (p - 1), ← zpow_add₀ (ne_of_gt hb0)]
    congr 1
    omega

/-! ### The integer square root equals `Nat.sqrt` -/

theorem newton_ge_sqrt {n g : ℕ} (hg : 0 < g) : Nat.sqrt n ≤ (g + n / g) / 2 := by
  set s := Nat.sqrt n with hs
  rw [Nat.le_div_iff_mul_le (by omega : 0 < 2)]
  rcases le_or_lt (2 * s) g with hc | hc
  · have := Nat.zero_le (n / g)
    omega
  · have hsq : s * s ≤ n := Nat.sqrt_le n
    have h1 : (2 * s - g) * g ≤ s * s := by
      zify [show g ≤ 2 * s by omega]
      nlinarith [sq_nonneg ((s : ℤ) - g)]
    have hkey : (2 * s - g) * g ≤ n := le_trans h1 hsq
    have hdiv : 2 * s - g ≤ n / g := (Nat.le_div_iff_mul_le hg).2 hkey
    omega

theorem isqrtAux_eq (n : ℕ) : ∀ fuel g, Nat.sqrt n ≤ g → g ≤ fuel + Nat.sqrt n →
    1 ≤ Nat.sqrt n → isqrtAux n fuel g = Nat.sqrt n := by
  intro fuel
  induction fuel with
  | zero =>
    intro g h1 h2 h3
    have hg : g = Nat.sqrt n := by omega
    rw [isqrtAux, hg]
  | succ fuel ih =>
    intro g h1 h2 h3
    rw [isqrtAux]
    by_cases hlt : (g + n / g) / 2 < g
    · rw [if_pos hlt]
      have hg0 : 0 < g := by omega
      exact ih _ (newton_ge_sqrt hg0) (by omega) h3
    · rw [if_neg hlt]
      push_neg at hlt
      have h4 : 2 * ((g + n / g) / 2) ≤ g + n / g := by omega
      have h5 : g ≤ n / g := by omega
      have hg0 : 0 < g := by omega
      have h6 : g * g ≤ n := by
        calc g * g ≤ g * (n / g) := Nat.mul_le_mul_left g h5
        _ = (n / g) * g := Nat.mul_comm _ _
        _ ≤ n := Nat.div_mul_le_self n g
      have h7 : g ≤ Nat.sqrt n := Nat.le_sqrt.2 h6
      omega

theorem isqrt_eq (n : ℕ) : isqrt n = Nat.sqrt n := by
  rw [isqrt]
  by_cases h : n ≤ 1
  · rw [if_pos h]
    interval_cases n
    · simp
    · simp
  · rw [if_neg h]
    push_neg at h
    have hs1 : 1 ≤ Nat.sqrt n := Nat.le_sqrt.2 (by omega)
    apply isqrtAux_eq
    · rcases le_or_lt (Nat.sqrt n) 1 with h1 | h1
      · omega
      · have h2 : Nat.sqrt n * 2 ≤ Nat.sqrt n * Nat.sqrt n := Nat.mul_le_mul_left _ h1
        have h3 : Nat.sqrt n * Nat.sqrt n ≤ n := Nat.sqrt_le n
        rw [Nat.le_div_iff_mul_le (by omega : 0 < 2)]
        omega
    · have := Nat.div_le_self n 2
      omega
    · exact hs1

/-! ### The correctly rounded square root -/

theorem sqrtNearest_upper {x d : ℕ} (hd : 0 < d) :
    4 * x ≤ d ^ 2 * (2 * sqrtNearest x d + 1) ^ 2 := by
  rw [sqrtNearest, isqrt_eq]
  set k0 := Nat.sqrt x / d with hk0
  have hdm : x < d * d * (k0 + 1) * (k0 + 1) := by
    have hmod := Nat.div_add_mod (Nat.sqrt x) d
    have hmlt : Nat.sqrt x % d < d := Nat.mod_lt _ hd
    have hdist : d * (k0 + 1) = d * k0 + d := by ring
    have hs : Nat.sqrt x < d * (k0 + 1) := by
      rw [hdist, ← hk0] at *
      linarith [hmod, hmlt]
    have hx : x < (Nat.sqrt x + 1) * (Nat.sqrt x + 1) := Nat.lt_succ_sqrt x
    calc x < (Nat.sqrt x + 1) * (Nat.sqrt x + 1) := hx
    _ ≤ (d * (k0 + 1)) * (d * (k0 + 1)) := Nat.mul_le_mul (by omega) (by omega)
    _ = d * d * (k0 + 1) * (k0 + 1) := by ring
  have hstep : 4 * x ≤ d ^ 2 * (2 * (k0 + 1) + 1) ^ 2 := by
    calc 4 * x ≤ 4 * (d * d * (k0 + 1) * (k0 + 1)) := Nat.mul_le_mul_left 4 hdm.le
    _ = d ^ 2 * (2 * (k0 + 1)) ^ 2 := by ring
    _ ≤ d ^ 2 * (2 * (k0 + 1) + 1) ^ 2 :=
        Nat.mul_le_mul_left _ (Nat.pow_le_pow_left (by omega) 2)
  split_ifs with h1 h2 h3
  · omega
  · exact hstep
  · omega
  · exact hstep

theorem sqrtNearest_lower {x d : ℕ} (hd : 0 < d) (hk : 1 ≤ sqrtNearest x d) :
    d ^ 2 * (2 * sqrtNearest x d - 1) ^ 2 ≤ 4 * x := by
  rw [sqrtNearest, isqrt_eq] at hk ⊢
  set k0 := Nat.sqrt x / d with hk0
  have hfl : d * k0 ≤ Nat.sqrt x := by
    have := Nat.div_mul_le_self (Nat.sqrt x) d
    calc d * k0 = k0 * d := Nat.mul_comm _ _
    _ ≤ Nat.sqrt x := this
  have hsq : Nat.sqrt x * Nat.sqrt x ≤ x := Nat.sqrt_le x
  have hk0sq : d * d * k0 * k0 ≤ x := by
    calc d * d * k0 * k0 = (d * k0) * (d * k0) := by ring
    _ ≤ Nat.sqrt x * Nat.sqrt x := Nat.mul_le_mul hfl hfl
    _ ≤ x := hsq
  have hlow : 1 ≤ k0 → d ^ 2 * (2 * k0 - 1) ^ 2 ≤ 4 * x := by
    intro hk1
    calc d ^ 2 * (2 * k0 - 1) ^ 2 ≤ d ^ 2 * (2 * k0) ^ 2 :=
        Nat.mul_le_mul_left _ (Nat.pow_le_pow_left (by omega) 2)
    _ = 4 * (d * d * k0 * k0) := by ring
    _ ≤ 4 * x := Nat.mul_le_mul_left 4 hk0sq
  have hsucc : ∀ c : ℕ, d ^ 2 * (2 * c + 1) ^ 2 ≤ 4 * x →
      d ^ 2 * (2 * (c + 1) - 1) ^ 2 ≤ 4 * x := by
    intro c hc
    rw [show 2 * (c + 1) - 1 = 2 * c + 1 by omega]
    exact hc
  split_ifs at hk ⊢ with h1 h2 h3
  · exact hlow hk
  · exact hsucc k0 h2.le
  · exact hlow hk
  · exact hsucc k0 (by omega)

theorem cast_pow_eq_zpow {b : ℕ} (t : ℕ) : ((b ^ t : ℕ) : ℚ) = (b : ℚ) ^ (t : ℤ) := by
  push_cast
  rw [zpow_natCast]

theorem q_num_den {q : ℚ} (hq : 0 < q) :
    ((q.num.toNat : ℕ) : ℚ) = q * ((q.den : ℕ) : ℚ) := by
  have hnum : ((q.num.toNat : ℕ) : ℚ) = (q.num : ℚ) := by
    have h1 : ((q.num.toNat : ℕ) : ℤ) = q.num := Int.toNat_of_nonneg (Rat.num_nonneg.2 hq.le)
    exact_mod_cast h1
  have h2 := Rat.num_div_den q
  rw [div_eq_iff (show ((q.den : ℕ) : ℚ) ≠ 0 by exact_mod_cast q.den_ne_zero)] at h2
  rw [hnum, h2]

theorem sqrtSig_of_pos {b p : ℕ} {q : ℚ} (hq : 0 < q) :
    sqrtSig b p q = (sqrtSigK b p q : ℚ) * (b : ℚ) ^ sqrtSigS b p q := by
  rw [sqrtSig, if_neg (not_le.2 hq), qmul_eq, qpow_eq]
  norm_cast

/-- The correctly rounded square root, characterised by squared inequalities:
`sqrtSig b p q = k · b^s` with `s = sqrtSigS b p q` and the integer
`k = sqrtSigK b p q` satisfying `(2k-1)² (b^s)² ≤ 4q ≤ (2k+1)² (b^s)²`
(the lower bound when `1 ≤ k`). -/
theorem sqrtSig_spec {b p : ℕ} (hb : 2 ≤ b) {q : ℚ} (hq : 0 < q) :
    4 * q ≤ ((2 * sqrtSigK b p q + 1 : ℕ) : ℚ) ^ 2 * ((b : ℚ) ^ sqrtSigS b p q) ^ 2 ∧
      (1 ≤ sqrtSigK b p q → ((2 * sqrtSigK b p q - 1 : ℕ) : ℚ) ^ 2 *
        ((b : ℚ) ^ sqrtSigS b p q) ^ 2 ≤ 4 * q) := by
  have hb0 := cast_b_pos hb
  have hbn : 0 < b := by omega
  set s : ℤ := sqrtSigS b p q with hs
  set a := q.num.toNat with ha
  set d := q.den with hd
  have hdpos : 0 < d := q.den_pos
  have hdq : (0 : ℚ) < (d : ℚ) := by exact_mod_cast hdpos
  have hAq : ((a : ℕ) : ℚ) = q * (d : ℚ) := q_num_den hq
  rw [sqrtSigK, ← hs]
  by_cases hs0 : 0 ≤ s
  · rw [if_pos hs0]
    set t := s.toNat with ht
    have hts : (t : ℤ) = s := Int.toNat_of_nonneg hs0
    set k := sqrtNearest (a * d) (d * b ^ t) with hk
    have hdt : 0 < d * b ^ t := Nat.mul_pos hdpos (Nat.pos_pow_of_pos t hbn)
    have hT : ((b ^ t : ℕ) : ℚ) = (b : ℚ) ^ s := by rw [cast_pow_eq_zpow, hts]
    constructor
    · have hup := sqrtNearest_upper (x := a * d) hdt
      have key : (4 * q) * (d : ℚ) ^ 2 ≤
          (((2 * k + 1 : ℕ) : ℚ) ^ 2 * ((b : ℚ) ^ s) ^ 2) * (d : ℚ) ^ 2 := by
        calc (4 * q) * (d : ℚ) ^ 2 = 4 * (((a : ℕ) : ℚ) * (d : ℚ)) := by rw [hAq]; ring
        _ = ((4 * (a * d) : ℕ) : ℚ) := by push_cast; ring
        _ ≤ (((d * b ^ t) ^ 2 * (2 * k + 1) ^ 2 : ℕ) : ℚ) := by exact_mod_cast hup
        _ = (d : ℚ) ^ 2 * ((b ^ t : ℕ) : ℚ) ^ 2 * ((2 * k + 1 : ℕ) : ℚ) ^ 2 := by
            push_cast; ring
        _ = (((2 * k + 1 : ℕ) : ℚ) ^ 2 * ((b : ℚ) ^ s) ^ 2) * (d : ℚ) ^ 2 := by
            rw [hT]; ring
      exact le_of_mul_le_mul_right key (by positivity)
    · intro hk1
      have hlow := sqrtNearest_lower (x := a * d) hdt hk1
      have key : (((2 * k - 1 : ℕ) : ℚ) ^ 2 * ((b : ℚ) ^ s) ^ 2) * (d : ℚ) ^ 2 ≤
          (4 * q) * (d : ℚ) ^ 2 := by
        calc (((2 * k - 1 : ℕ) : ℚ) ^ 2 * ((b : ℚ) ^ s) ^ 2) * (d : ℚ) ^ 2
            = (d : ℚ) ^ 2 * ((b ^ t : ℕ) : ℚ) ^ 2 * ((2 * k - 1 : ℕ) : ℚ) ^ 2 := by
              rw [hT]; ring
        _ = (((d * b ^ t) ^ 2 * (2 * k - 1) ^ 2 : ℕ) : ℚ) := by push_cast; ring
        _ ≤ ((4 * (a * d) : ℕ) : ℚ) := by exact_mod_cast hlow
        _ = 4 * (((a : ℕ) : ℚ) * (d : ℚ)) := by push_cast; ring
        _ = (4 * q) * (d : ℚ) ^ 2 := by rw [hAq]; ring
      exact le_of_mul_le_mul_right key (by positivity)
  · rw [if_neg hs0]
    push_neg at hs0
    set u := (-s).toNat with hu
    have hus : (u : ℤ) = -s := Int.toNat_of_nonneg (by omega)
    set k := sqrtNearest (a * d * (b ^ u) ^ 2) d with hk
    have hB : ((b ^ u : ℕ) : ℚ) = (b : ℚ) ^ (-s) := by rw [cast_pow_eq_zpow, hus]
    have hcancel : ((b : ℚ) ^ s) ^ 2 * ((b : ℚ) ^ (-s)) ^ 2 = 1 := by
      rw [← mul_pow, ← zpow_add₀ (ne_of_gt hb0)]
      simp
    constructor
    · have hup := sqrtNearest_upper (x := a * d * (b ^ u) ^ 2) hdpos
      have key : (4 * q) * ((d : ℚ) ^ 2 * ((b : ℚ) ^ (-s)) ^ 2) ≤
          (((2 * k + 1 : ℕ) : ℚ) ^ 2 * ((b : ℚ) ^ s) ^ 2) *
            ((d : ℚ) ^ 2 * ((b : ℚ) ^ (-s)) ^ 2) := by
        calc (4 * q) * ((d : ℚ) ^ 2 * ((b : ℚ) ^ (-s)) ^ 2)
            = 4 * ((((a : ℕ) : ℚ) * (d : ℚ)) * ((b : ℚ) ^ (-s)) ^ 2) := by rw [hAq]; ring
        _ = ((4 * (a * d * (b ^ u) ^ 2) : ℕ) : ℚ) := by rw [← hB]; push_cast; ring
        _ ≤ ((d ^ 2 * (2 * k + 1) ^ 2 : ℕ) : ℚ) := by exact_mod_cast hup
        _ = ((2 * k + 1 : ℕ) : ℚ) ^ 2 * (d : ℚ) ^ 2 := by push_cast; ring
        _ = (((2 * k + 1 : ℕ) : ℚ) ^ 2 * ((b : ℚ) ^ s) ^ 2) *
              ((d : ℚ) ^ 2 * ((b : ℚ) ^ (-s)) ^ 2) := by
            rw [show (((2 * k + 1 : ℕ) : ℚ) ^ 2 * ((b : ℚ) ^ s) ^ 2) *
                  ((d : ℚ) ^ 2 * ((b : ℚ) ^ (-s)) ^ 2) =
                ((2 * k + 1 : ℕ) : ℚ) ^ 2 * (d : ℚ) ^ 2 *
                  (((b : ℚ) ^ s) ^ 2 * ((b : ℚ) ^ (-s)) ^ 2) from by ring, hcancel, mul_one]
      exact le_of_mul_le_mul_right key (by positivity)
    · intro hk1
      have hlow := sqrtNearest_lower (x := a * d * (b ^ u) ^ 2) hdpos hk1
      have key : (((2 * k - 1 : ℕ) : ℚ) ^ 2 * ((b : ℚ) ^ s) ^ 2) *
            ((d : ℚ) ^ 2 * ((b : ℚ) ^ (-s)) ^ 2) ≤
          (4 * q) * ((d : ℚ) ^ 2 * ((b : ℚ) ^ (-s)) ^ 2) := by
        calc (((2 * k - 1 : ℕ) : ℚ) ^ 2 * ((b : ℚ) ^ s) ^ 2) *
              ((d : ℚ) ^ 2 * ((b : ℚ) ^ (-s)) ^ 2)
            = ((2 * k - 1 : ℕ) : ℚ) ^ 2 * (d : ℚ) ^ 2 *
                (((b : ℚ) ^ s) ^ 2 * ((b : ℚ) ^ (-s)) ^ 2) := by ring
        _ = ((2 * k - 1 : ℕ) : ℚ) ^ 2 * (d : ℚ) ^ 2 := by rw [hcancel, mul_one]
        _ = ((d ^ 2 * (2 * k - 1) ^ 2 : ℕ) : ℚ) := by push_cast; ring
        _ ≤ ((4 * (a * d * (b ^ u) ^ 2) : ℕ) : ℚ) := by exact_mod_cast hlow
        _ = 4 * ((((a : ℕ) : ℚ) * (d : ℚ)) * ((b : ℚ) ^ (-s)) ^ 2) := by
            rw [← hB]; push_cast; ring
        _ = (4 * q) * ((d : ℚ) ^ 2 * ((b : ℚ) ^ (-s)) ^ 2) := by rw [hAq]; ring
      exact le_of_mul_le_mul_right key (by positivity)

theorem zpow_sq {b : ℕ} (hb : 2 ≤ b) (s : ℤ) :
    ((b : ℚ) ^ s) ^ 2 = (b : ℚ) ^ (s + s) := by
  rw [zpow_add₀ (ne_of_gt (cast_b_pos hb)), sq]

theorem sqrtSigS_le {b p : ℕ} (hp : 1 ≤ p) (q : ℚ) :
    sqrtSigS b p q + sqrtSigS b p q ≤ qexp b q ∧
      qexp b q + 1 ≤ sqrtSigS b p q + sqrtSigS b p q + 2 * (p - 1 : ℕ) + 2 := by
  rw [sqrtSigS, Int.fdiv_eq_ediv _ (by norm_num)]
  omega

theorem sqrtSig_pos {b p : ℕ} (hb : 2 ≤ b) (hp : 1 ≤ p) {q : ℚ} (hq : 0 < q) :
    0 < sqrtSig b p q := by
  have hb0 := cast_b_pos hb
  rw [sqrtSig_of_pos hq]
  have hBpos : (0 : ℚ) < (b : ℚ) ^ sqrtSigS b p q := zpow_pos hb0 _
  rcases Nat.eq_zero_or_pos (sqrtSigK b p q) with h0 | h0
  · exfalso
    obtain ⟨hup, -⟩ := sqrtSig_spec hb hq (p := p)
    rw [h0] at hup
    norm_num at hup
    obtain ⟨hlo, -⟩ := qexp_spec hb hq.ne'
    rw [abs_of_pos hq] at hlo
    obtain ⟨hs2e, -⟩ := sqrtSigS_le hp q (b := b)
    have h1 : (b : ℚ) ^ (sqrtSigS b p q + sqrtSigS b p q) ≤ (b : ℚ) ^ qexp b q :=
      zpow_le_zpow_right₀ (by exact_mod_cast (show 1 ≤ b by omega)) hs2e
    rw [zpow_sq hb] at hup
    linarith
  · exact mul_pos (by exact_mod_cast h0) hBpos

theorem sqrtSig_le_one {b p : ℕ} (hb : 2 ≤ b) (hp : 1 ≤ p) {q : ℚ} (hq : 0 < q)
    (hq1 : q < 1) : sqrtSig b p q ≤ 1 := by
  have hb0 := cast_b_pos hb
  have hb1 : (1 : ℚ) ≤ (b : ℚ) := by exact_mod_cast (show 1 ≤ b by omega)
  rw [sqrtSig_of_pos hq]
  set K := sqrtSigK b p q with hK
  set S := sqrtSigS b p q with hS
  have hBpos : (0 : ℚ) < (b : ℚ) ^ S := zpow_pos hb0 _
  rcases Nat.eq_zero_or_pos K with h0 | h0
  · rw [h0]
    norm_num
  · obtain ⟨-, hlow⟩ := sqrtSig_spec hb hq (p := p)
    have hlow := hlow h0
    obtain ⟨hlo2, hhi⟩ := qexp_spec hb hq.ne'
    rw [abs_of_pos hq] at hlo2 hhi
    have he : qexp b q ≤ -1 := by
      by_contra hcon
      push_neg at hcon
      have h2 : (1 : ℚ) ≤ (b : ℚ) ^ qexp b q := by
        calc (1 : ℚ) = (b : ℚ) ^ (0 : ℤ) := (zpow_zero _).symm
        _ ≤ (b : ℚ) ^ qexp b q := zpow_le_zpow_right₀ hb1 (by omega)
      linarith
    have hfd := sqrtSigS_le hp q (b := b)
    have hSP : S + ((p - 1 : ℕ) : ℤ) + 1 ≤ 0 := by
      rw [hS, sqrtSigS, Int.fdiv_eq_ediv _ (by norm_num)]
      omega
    set MN := b ^ (p - 1 + 1) with hMN
    have hMcast : ((MN : ℕ) : ℚ) = (b : ℚ) ^ ((p - 1 + 1 : ℕ) : ℤ) := cast_pow_eq_zpow _
    have hysq : ((2 * MN : ℕ) : ℚ) ^ 2 =
        4 * (b : ℚ) ^ ((p - 1 + 1 : ℕ) : ℤ) * (b : ℚ) ^ ((p - 1 + 1 : ℕ) : ℤ) := by
      push_cast [hMcast]
      ring
    have hx2 : ((2 * K - 1 : ℕ) : ℚ) ^ 2 * ((b : ℚ) ^ S) ^ 2 <
        ((2 * MN : ℕ) : ℚ) ^ 2 * ((b : ℚ) ^ S) ^ 2 := by
      calc ((2 * K - 1 : ℕ) : ℚ) ^ 2 * ((b : ℚ) ^ S) ^ 2 ≤ 4 * q := hlow
      _ < 4 * (b : ℚ) ^ (qexp b q + 1) := by linarith
      _ ≤ 4 * (b : ℚ) ^ (S + S + 2 * (p - 1 : ℕ) + 2) := by
          have := zpow_le_zpow_right₀ hb1 hfd.2
          linarith
      _ = 4 * (b : ℚ) ^ (((p - 1 + 1 : ℕ) : ℤ) + ((p - 1 + 1 : ℕ) : ℤ) + (S + S)) := by
          rw [show S + S + 2 * (p - 1 : ℕ) + 2
              = ((p - 1 + 1 : ℕ) : ℤ) + ((p - 1 + 1 : ℕ) : ℤ) + (S + S) from by
            push_cast
            omega]
      _ = ((2 * MN : ℕ) : ℚ) ^ 2 * ((b : ℚ) ^ S) ^ 2 := by
          rw [hysq, zpow_sq hb, zpow_add₀ (ne_of_gt hb0), zpow_add₀ (ne_of_gt hb0)]
          ring
    have hxy : ((2 * K - 1 : ℕ) : ℚ) < ((2 * MN : ℕ) : ℚ) := by
      have hB2 : (0 : ℚ) < ((b : ℚ) ^ S) ^ 2 := by positivity
      have h2 : ((2 * K - 1 : ℕ) : ℚ) ^ 2 < ((2 * MN : ℕ) : ℚ) ^ 2 :=
        lt_of_mul_lt_mul_right hx2 hB2.le
      exact lt_of_pow_lt_pow_left₀ 2 (by positivity) h2
    have hKM : K ≤ MN := by
      have h3 : 2 * K - 1 < 2 * MN := by exact_mod_cast hxy
      omega
    calc (K : ℚ) * (b : ℚ) ^ S ≤ ((MN : ℕ) : ℚ) * (b : ℚ) ^ S := by
          have hKMq : (K : ℚ) ≤ ((MN : ℕ) : ℚ) := by exact_mod_cast hKM
          exact mul_le_mul_of_nonneg_right hKMq hBpos.le
    _ = (b : ℚ) ^ (((p - 1 + 1 : ℕ) : ℤ) + S) := by
        rw [hMcast, ← zpow_add₀ (ne_of_gt hb0)]
    _ ≤ (b : ℚ) ^ (0 : ℤ) := zpow_le_zpow_right₀ hb1 (by push_cast at hSP ⊢; omega)
    _ = 1 := zpow_zero _

/-! ## The success path of `time_dilation_factor` -/

theorem dec_pow2_nonneg (x : ℚ) : 0 ≤ dec_pow2 x := by
  rw [dec_pow2, decRound]
  apply roundSig_nonneg (by norm_num) (by norm_num)
  apply roundSig_nonneg (by norm_num) (by norm_num)
  rw [qmul_eq]
  exact mul_self_nonneg x

theorem ratio_nonneg (x c : ℚ) : 0 ≤ dec_div (dec_pow2 x) (dec_pow2 c) := by
  rw [dec_div, decRound]
  apply roundSig_nonneg (by norm_num) (by norm_num)
  rw [qdiv_eq]
  exact div_nonneg (dec_pow2_nonneg x) (dec_pow2_nonneg c)

theorem radicand_le_one (x c : ℚ) :
    dec_sub 1 (dec_div (dec_pow2 x) (dec_pow2 c)) ≤ 1 := by
  rw [dec_sub, decRound]
  apply roundSig_le_one (by norm_num) (by norm_num)
  rw [qsub_eq]
  have h := ratio_nonneg x c
  linarith

/-- Every gamma `time_dilation_factor` returns is `fdiv 1 (fsqrt rf)` for a
radicand `rf` in the half-open interval `(0, 1]`. -/
theorem tdf_char {v c g : ℚ} (h : time_dilation_factor v c = some g) :
    ∃ rf : ℚ, 0 < rf ∧ rf ≤ 1 ∧ g = fdiv 1 (fsqrt rf) := by
  simp only [time_dilation_factor] at h
  split_ifs at h with h1 h2 h3
  refine ⟨fl64 (dec_sub 1 (dec_div (dec_pow2 (dec_mul (dec_div v 100) c)) (dec_pow2 c))),
    ?_, ?_, ?_⟩
  · rcases lt_or_eq_of_le (not_lt.mp h2) with hlt | heq
    · exact hlt
    · exfalso
      apply h3
      rw [← heq]
      decide
  · rw [fl64]
    exact roundSig_le_one (by norm_num) (by norm_num) (radicand_le_one _ _)
  · exact (Option.some.inj h).symm

theorem tdf_sqrt_bounds {rf : ℚ} (h0 : 0 < rf) (h1 : rf ≤ 1) :
    0 < fsqrt rf ∧ fsqrt rf ≤ 1 := by
  constructor
  · exact sqrtSig_pos (by norm_num) (by norm_num) h0
  · rcases lt_or_eq_of_le h1 with hlt | heq
    · exact sqrtSig_le_one (by norm_num) (by norm_num) h0 hlt
    · rw [heq]
      exact le_of_eq (by decide)

/-! ## Scale invariance of the gamma computation -/

/-- Scaling `c` by a power of ten (the unit table's scales) leaves
`time_dilation_factor` unchanged: every `Decimal` rounding step commutes with
powers of the base. -/
theorem tdf_scale (v c : ℚ) (k : ℕ) :
    time_dilation_factor v (c * (10 : ℚ) ^ (k : ℤ)) = time_dilation_factor v c := by
  have h10 : (0 : ℚ) < (10 : ℚ) ^ (k : ℤ) := zpow_pos (by norm_num) _
  have hB : ((10 : ℚ) ^ (k : ℤ)) ≠ 0 := ne_of_gt h10
  have hc0 : (c * (10 : ℚ) ^ (k : ℤ) = 0) ↔ (c = 0) := by
    constructor
    · intro h
      rcases mul_eq_zero.mp h with h | h
      · exact h
      · exact absurd h hB
    · intro h
      rw [h, zero_mul]
  have hvel : dec_mul (dec_div v 100) (c * (10 : ℚ) ^ (k : ℤ))
      = dec_mul (dec_div v 100) c * (10 : ℚ) ^ (k : ℤ) := by
    rw [dec_mul, dec_mul, qmul_eq, qmul_eq, decRound, decRound, ← mul_assoc]
    exact roundSig_scale (by norm_num) _ k
  have hpow : ∀ x : ℚ, dec_pow2 (x * (10 : ℚ) ^ (k : ℤ))
      = dec_pow2 x * (10 : ℚ) ^ ((k : ℤ) + (k : ℤ)) := by
    intro x
    have harg : x * (10 : ℚ) ^ (k : ℤ) * (x * (10 : ℚ) ^ (k : ℤ))
        = x * x * (10 : ℚ) ^ ((k : ℤ) + (k : ℤ)) := by
      rw [zpow_add₀ (by norm_num : (10 : ℚ) ≠ 0)]
      ring
    rw [dec_pow2, dec_pow2, qmul_eq, qmul_eq, harg]
    have h1 : roundSig 10 203 (x * x * (10 : ℚ) ^ ((k : ℤ) + (k : ℤ)))
        = roundSig 10 203 (x * x) * (10 : ℚ) ^ ((k : ℤ) + (k : ℤ)) :=
      roundSig_scale (by norm_num) _ _
    rw [h1, decRound, decRound]
    exact roundSig_scale (by norm_num) _ _
  have hS : ((10 : ℚ) ^ ((k : ℤ) + (k : ℤ))) ≠ 0 :=
    ne_of_gt (zpow_pos (by norm_num) _)
  have hdiv : ∀ a b : ℚ, dec_div (a * (10 : ℚ) ^ ((k : ℤ) + (k : ℤ)))
      (b * (10 : ℚ) ^ ((k : ℤ) + (k : ℤ))) = dec_div a b := by
    intro a b
    rw [dec_div, dec_div, qdiv_eq, qdiv_eq, mul_div_mul_right _ _ hS]
  simp only [time_dilation_factor]
  rw [hvel, hpow, hpow, hdiv]
  exact if_congr hc0 rfl rfl

/-! ## The round-trip relative error of the unit conversions -/

theorem dec_roundtrip_rel (x K : ℚ) (hK : 0 < K) :
    |dec_mul (dec_div x K) K - x| ≤ 2 / 10 ^ 199 * |x| := by
  have hεnum : ((10 : ℚ) ^ ((1 : ℤ) - ((200 : ℕ) : ℤ)) / 2) = 1 / (2 * 10 ^ 199) := by
    rw [show (1 : ℤ) - ((200 : ℕ) : ℤ) = -((199 : ℕ) : ℤ) from by norm_num, zpow_neg,
      zpow_natCast]
    norm_num
  have h1 : |dec_div x K - x / K| ≤ 1 / (2 * 10 ^ 199) * |x / K| := by
    rw [dec_div, decRound, qdiv_eq, ← hεnum]
    exact roundSig_rel (by norm_num) (by norm_num) _
  have h2 : |dec_mul (dec_div x K) K - dec_div x K * K|
      ≤ 1 / (2 * 10 ^ 199) * |dec_div x K * K| := by
    rw [dec_mul, decRound, qmul_eq, ← hεnum]
    exact roundSig_rel (by norm_num) (by norm_num) _
  have hxK : |x / K| * K = |x| := by
    rw [abs_div, abs_of_pos hK, div_mul_cancel₀ _ (ne_of_gt hK)]
  have h3 : |dec_div x K * K - x| ≤ 1 / (2 * 10 ^ 199) * |x| := by
    have heq : dec_div x K * K - x = (dec_div x K - x / K) * K := by
      field_simp
    rw [heq, abs_mul, abs_of_pos hK]
    calc |dec_div x K - x / K| * K ≤ 1 / (2 * 10 ^ 199) * |x / K| * K :=
          mul_le_mul_of_nonneg_right h1 hK.le
    _ = 1 / (2 * 10 ^ 199) * |x| := by rw [mul_assoc, hxK]
  have h4 : |dec_div x K * K| ≤ (1 + 1 / (2 * 10 ^ 199)) * |x| := by
    calc |dec_div x K * K| = |(dec_div x K * K - x) + x| := by ring_nf
    _ ≤ |dec_div x K * K - x| + |x| := abs_add _ _
    _ ≤ 1 / (2 * 10 ^ 199) * |x| + |x| := by linarith
    _ = (1 + 1 / (2 * 10 ^ 199)) * |x| := by ring
  have habs : (0 : ℚ) ≤ |x| := abs_nonneg x
  calc |dec_mul (dec_div x K) K - x|
      ≤ |dec_mul (dec_div x K) K - dec_div x K * K| + |dec_div x K * K - x| :=
        abs_sub_le _ _ _
  _ ≤ 1 / (2 * 10 ^ 199) * |dec_div x K * K| + 1 / (2 * 10 ^ 199) * |x| := by linarith
  _ ≤ 1 / (2 * 10 ^ 199) * ((1 + 1 / (2 * 10 ^ 199)) * |x|) + 1 / (2 * 10 ^ 199) * |x| := by
        have := mul_le_mul_of_nonneg_left h4 (show (0 : ℚ) ≤ 1 / (2 * 10 ^ 199) by positivity)
        linarith
  _ = (1 / (2 * 10 ^ 199) * (1 + 1 / (2 * 10 ^ 199)) + 1 / (2 * 10 ^ 199)) * |x| := by ring
  _ ≤ 2 / 10 ^ 199 * |x| := by
        apply mul_le_mul_of_nonneg_right _ habs
        norm_num

/-! ## Real-number literals are parsed unchanged by the `Decimal` grammar -/

theorem dropWhile_eq_self_of_all {p : Char → Bool} {l : List Char}
    (h : ∀ c ∈ l, p c = false) : l.dropWhile p = l := by
  cases l with
  | nil => rfl
  | cons a t =>
    rw [List.dropWhile_cons, h a (List.mem_cons_self a t)]
    simp

theorem plainChar_not_space_underscore {c : Char} (h : plainChar c = true) :
    isSpaceCh c = false ∧ (c != '_') = true := by
  have h95 : ('_').toNat = 95 := rfl
  simp only [plainChar, Bool.or_eq_true, beq_iff_eq] at h
  rcases h with ((((hd | h) | h) | h) | h) | h
  · simp only [isDigitCh, Bool.and_eq_true, decide_eq_true_eq] at hd
    constructor
    · simp only [isSpaceCh, Bool.or_eq_false_iff, decide_eq_false_iff_not]
      omega
    · simp only [bne_iff_ne, ne_eq]
      intro hc
      rw [hc] at hd
      omega
  · rw [h]
    decide
  · rw [h]
    decide
  · rw [h]
    decide
  · rw [h]
    decide
  · rw [h]
    decide

theorem strip_filter_id {l : List Char} (h : ∀ c ∈ l, plainChar c = true) :
    (stripWS l).filter (· != '_') = l := by
  have hns : ∀ c ∈ l, isSpaceCh c = false :=
    fun c hc => (plainChar_not_space_underscore (h c hc)).1
  have h1 : l.dropWhile isSpaceCh = l := dropWhile_eq_self_of_all hns
  have h2 : l.reverse.dropWhile isSpaceCh = l.reverse :=
    dropWhile_eq_self_of_all (fun c hc => hns c (List.mem_reverse.mp hc))
  have h3 : stripWS l = l := by
    rw [stripWS, h1, h2, List.reverse_reverse]
  rw [h3]
  apply List.filter_eq_self.mpr
  intro c hc
  exact (plainChar_not_space_underscore (h c hc)).2

theorem scanSign_mem (l : List Char) :
    ∀ c ∈ l, c = '-' ∨ c = '+' ∨ c ∈ (scanSign l).2 := by
  intro c hc
  rw [scanSign]
  split_ifs with h1 h2
  · rcases l with _ | ⟨a, t⟩
    · exact absurd hc (List.not_mem_nil c)
    · have ha : a = '-' := by simpa using h1
      rcases List.mem_cons.mp hc with h3 | h3
      · left
        rw [h3, ha]
      · right; right
        simpa using h3
  · rcases l with _ | ⟨a, t⟩
    · exact absurd hc (List.not_mem_nil c)
    · have ha : a = '+' := by simpa using h2
      rcases List.mem_cons.mp hc with h3 | h3
      · right; left
        rw [h3, ha]
      · right; right
        simpa using h3
  · right; right
    exact hc

theorem scanExpSuffix_plain {r2 : List Char} {e : ℤ} (h : scanExpSuffix r2 = some e) :
    ∀ c ∈ r2, plainChar c = true := by
  intro c hc
  rw [scanExpSuffix] at h
  split_ifs at h with h1 h2 h3
  all_goals
  rcases r2 with _ | ⟨a, t⟩
  · exact absurd hc (List.not_mem_nil c)
  · simp only [List.tail_cons] at h2
    rcases List.mem_cons.mp hc with h3 | h3
    · rcases h1 with h1 | h1
      · have ha : a = 'e' := by simpa using h1
        rw [h3, ha]
        decide
      · have ha : a = 'E' := by simpa using h1
        rw [h3, ha]
        decide
    · rcases scanSign_mem t c h3 with h4 | h4 | h4
      · rw [h4]
        decide
      · rw [h4]
        decide
      · rw [← List.takeWhile_append_dropWhile (p := isDigitCh) (l := (scanSign t).2)] at h4
        rcases List.mem_append.mp h4 with h5 | h5
        · have hd := List.mem_takeWhile_imp h5
          simp [plainChar, hd]
        · rw [h2.2] at h5
          exact absurd h5 (List.not_mem_nil c)

theorem coeff_plain {l : List Char} (c : Char) (hc : c ∈ l)
    (hr2 : ∀ d ∈ afterCoeff (l.dropWhile isDigitCh), plainChar d = true) :
    plainChar c = true := by
  rw [← List.takeWhile_append_dropWhile (p := isDigitCh) (l := l)] at hc
  rcases List.mem_append.mp hc with h1 | h1
  · have hd := List.mem_takeWhile_imp h1
    simp [plainChar, hd]
  · by_cases hdot : (l.dropWhile isDigitCh).head? = some '.'
    · rcases hr1 : l.dropWhile isDigitCh with _ | ⟨a, t⟩
      · rw [hr1] at h1
        exact absurd h1 (List.not_mem_nil c)
      · rw [hr1] at h1 hdot
        have ha : a = '.' := by simpa using hdot
        rcases List.mem_cons.mp h1 with h2 | h2
        · rw [h2, ha]
          decide
        · rw [← List.takeWhile_append_dropWhile (p := isDigitCh) (l := t)] at h2
          rcases List.mem_append.mp h2 with h3 | h3
          · have hd := List.mem_takeWhile_imp h3
            simp [plainChar, hd]
          · apply hr2
            rw [hr1, afterCoeff, if_pos hdot]
            simpa using h3
    · apply hr2
      rw [afterCoeff, if_neg hdot]
      exact h1

theorem scanNumeric_plain {l : List Char} {q : ℚ} (h : scanNumeric l = some q) :
    ∀ c ∈ l, plainChar c = true := by
  intro c hc
  simp only [scanNumeric] at h
  split_ifs at h with h1 h2
  · -- the coefficient consumes the whole input
    exact coeff_plain c hc (fun d hd => absurd hd (by rw [h2]; exact List.not_mem_nil d))
  · rcases hexp : scanExpSuffix (afterCoeff (l.dropWhile isDigitCh)) with _ | e
    · rw [hexp] at h
      exact absurd h (by simp)
    · exact coeff_plain c hc (scanExpSuffix_plain hexp)

/-! ## The claims -/

/-- Claim C1: fails on the code.  The near-light-speed guard compares against
a *float* literal whose 202-nines digit string rounds to exactly `100.0` in
binary64, so the guard can never fire: the documented near-c threshold
(`specNearCThreshold`) passes validation and reaches the gamma computation,
which then fails with the generic error; no velocity is ever rejected with
the near-light-speed error.  The `velocity = 99` half of the claim does hold:
it passes validation and yields a finite gamma. -/
theorem claim_C1_near_c_guard_dead :
    validate_velocity specNearCThreshold = Except.ok () ∧
    time_dilation_factor specNearCThreshold C_MS = none ∧
    nearCGuardFloat = 100 ∧
    (∀ v : ℚ, validate_velocity v ≠ Except.error CalcError.nearLightSpeed) ∧
    validate_velocity 99 = Except.ok () ∧
    time_dilation_factor 99 C_MS = some (mkRat 1995323206703431 281474976710656) := by
  refine ⟨by decide, by decide, by decide, ?_, by decide, by decide⟩
  intro v
  rw [validate_velocity]
  by_cases h1 : 0 < v ∧ v < 100
  · rw [if_neg (not_not_intro h1)]
    have h2 : ¬ nearCGuardFloat ≤ v := by
      have h100 : nearCGuardFloat = (100 : ℚ) := by decide
      rw [h100]
      exact not_le.mpr h1.2
    rw [if_neg h2]
    simp
  · rw [if_pos h1]
    simp

/-- Claim C2 (amended): the `Decimal` steps of the engine do run at the fixed
200-digit context, but the square root and the final reciprocal are binary64
(`math.sqrt` and float division), so every gamma the engine returns is a
binary64 value — re-rounding it to binary64 significance leaves it unchanged,
instead of carrying 200 significant digits. -/
theorem claim_C2_gamma_is_binary64 (v c g : ℚ)
    (h : time_dilation_factor v c = some g) : fl64 g = g := by
  obtain ⟨rf, hr0, hr1, hg⟩ := tdf_char h
  obtain ⟨hs0, -⟩ := tdf_sqrt_bounds hr0 hr1
  have hq : 0 < qdiv 1 (fsqrt rf) := by
    rw [qdiv_eq]
    exact div_pos one_pos hs0
  rw [hg]
  simp only [fdiv, fl64]
  exact roundSig_idem (by norm_num) (by norm_num) hq

/-- Witness for C2: at `v = 99`, `c` in m/s. -/
theorem claim_C2_witness :
    fl64 (mkRat 1995323206703431 281474976710656) = mkRat 1995323206703431 281474976710656 :=
  claim_C2_gamma_is_binary64 99 C_MS _ (by decide)

/-- Counterexample to C2 as stated: at `v = 99` the engine's gamma is not the
gamma obtained with the square root and reciprocal carried out at the
200-digit working precision — the two differ already in the 17th significant
digit. -/
theorem claim_C2_counterexample :
    time_dilation_factor 99 C_MS = some (mkRat 1995323206703431 281474976710656) ∧
    gamma_working_precision 99 C_MS = some (mkRat 553813441412762422472996376055171422657769634469371932757038825526645004210192728218940823140818011631114611568997882166549799273218709505088829351259367291043615698828211112306619295284512029918091 (78125 * 10 ^ 192)) ∧
    (mkRat 1995323206703431 281474976710656 : ℚ)
      ≠ mkRat 553813441412762422472996376055171422657769634469371932757038825526645004210192728218940823140818011631114611568997882166549799273218709505088829351259367291043615698828211112306619295284512029918091 (78125 * 10 ^ 192) := by
  exact ⟨by decide, by decide, by decide⟩

/-- Claim C3: fails on the code.  When the gamma computation fails,
`time_dilation` evaluates `Decimal(str(None))`, which raises an uncaught
`InvalidOperation` *before* the `None` guard on the next line: the caller
gets an exception, not an error value with a message. -/
theorem claim_C3_unhandled_exception (T v c : ℚ)
    (h : time_dilation_factor v c = none) :
    time_dilation T v c = Except.error PyExn.invalidOperation := by
  simp only [time_dilation]
  rw [h]

/-- Witness for C3: earth time 1 at velocity 150% of c. -/
theorem claim_C3_witness :
    time_dilation 1 150 C_MS = Except.error PyExn.invalidOperation :=
  claim_C3_unhandled_exception 1 150 C_MS (by decide)

/-- Claim C4 (amended): below the documented near-c threshold the gamma
computation need not succeed — the 200-digit rounding of `(v/100)·c` can
collapse the velocity to exactly `c` (see the counterexample) — but whenever
it does succeed the returned gamma is at least 1. -/
theorem claim_C4_gamma_ge_one (v c g : ℚ) (h0 : 0 < v) (h1 : v < 100)
    (h2 : v < specNearCThreshold) (hc : c ∈ c_units)
    (h : time_dilation_factor v c = some g) : 1 ≤ g := by
  obtain ⟨rf, hr0, hr1, hg⟩ := tdf_char h
  obtain ⟨hs0, hs1⟩ := tdf_sqrt_bounds hr0 hr1
  rw [hg]
  simp only [fdiv, fl64]
  apply roundSig_ge_one (by norm_num) (by norm_num)
  rw [qdiv_eq, le_div_iff₀ hs0]
  linarith

/-- Witness for C4: `v = 99`, `c` in m/s. -/
theorem claim_C4_witness : (1 : ℚ) ≤ mkRat 1995323206703431 281474976710656 :=
  claim_C4_gamma_ge_one 99 C_MS _ (by decide) (by decide) (by decide) (by decide)
    (by decide)

/-- Counterexample to C4 as stated: `v₀ = 100 - 1.2·10⁻¹⁹⁸` lies strictly
inside `(0, 100)` and strictly below the documented near-c threshold
`100 - 10⁻¹⁹⁹`, and m/s is in the unit table, yet the gamma computation
fails: rounding `(v₀/100)·c` to 200 significant digits yields exactly `c`,
the radicand becomes 0 and `1 / sqrt` raises. -/
theorem claim_C4_counterexample :
    0 < mkRat ((10 ^ 201 - 12 : ℕ) : ℤ) (10 ^ 199) ∧
    mkRat ((10 ^ 201 - 12 : ℕ) : ℤ) (10 ^ 199) < 100 ∧
    mkRat ((10 ^ 201 - 12 : ℕ) : ℤ) (10 ^ 199) < specNearCThreshold ∧
    C_MS ∈ c_units ∧
    time_dilation_factor (mkRat ((10 ^ 201 - 12 : ℕ) : ℤ) (10 ^ 199)) C_MS = none := by
  exact ⟨by decide, by decide, by decide, by decide, by decide⟩

/-- Claim C5 (amended): the km/mi round trip through light-years reproduces
`x` only up to the two 200-digit roundings it performs: the result differs
from `x` by at most `2·10⁻¹⁹⁹·|x|` (about one unit in the 200th significant
digit), and exact equality fails in general. -/
theorem claim_C5_roundtrip (x : ℚ) (u : String) (hu : u = "km" ∨ u = "mi") :
    ∃ y r : ℚ, convert_to_lightyears x u = some y ∧
      convert_from_lightyears y u = some r ∧ |r - x| ≤ 2 / 10 ^ 199 * |x| := by
  rcases hu with hu | hu <;> subst hu
  · refine ⟨dec_div x KM_PER_LIGHTYEAR,
      dec_mul (dec_div x KM_PER_LIGHTYEAR) KM_PER_LIGHTYEAR, ?_, ?_,
      dec_roundtrip_rel x KM_PER_LIGHTYEAR (by decide)⟩
    · rw [convert_to_lightyears, if_neg (by decide), if_pos rfl]
    · rw [convert_from_lightyears, if_neg (by decide), if_pos rfl]
  · refine ⟨dec_div x MILES_PER_LIGHTYEAR,
      dec_mul (dec_div x MILES_PER_LIGHTYEAR) MILES_PER_LIGHTYEAR, ?_, ?_,
      dec_roundtrip_rel x MILES_PER_LIGHTYEAR (by decide)⟩
    · rw [convert_to_lightyears, if_neg (by decide), if_neg (by decide), if_pos rfl]
    · rw [convert_from_lightyears, if_neg (by decide), if_neg (by decide), if_pos rfl]

/-- Witness for C5: `x = 6`, miles. -/
theorem claim_C5_witness :
    ∃ y r : ℚ, convert_to_lightyears 6 "mi" = some y ∧
      convert_from_lightyears y "mi" = some r ∧ |r - 6| ≤ 2 / 10 ^ 199 * |(6 : ℚ)| :=
  claim_C5_roundtrip 6 "mi" (Or.inr rfl)

/-- Counterexample to C5 as stated: 6 miles converts to light-years and back
to `6 + 2·10⁻¹⁹⁹` miles, not to 6. -/
theorem claim_C5_counterexample :
    (convert_to_lightyears 6 "mi").bind (fun y => convert_from_lightyears y "mi")
      = some (mkRat ((3 * 10 ^ 199 + 1 : ℕ) : ℤ) (5 * 10 ^ 198)) ∧
    (mkRat ((3 * 10 ^ 199 + 1 : ℕ) : ℤ) (5 * 10 ^ 198) : ℚ) ≠ 6 := by
  exact ⟨by decide, by decide⟩

/-- Claim C6: `convert_distance_to_travel_time` is the composite
"to light-years, divide by `v/100`, multiply by 31557600", and at 4.25
light-years and 99% the travel time in years is 425/99 = 4.292929…, within
10⁻¹⁹⁰ of the exact value and within 10⁻¹⁰ of the decimal 4.2929292929. -/
theorem claim_C6_travel_time :
    (∀ (x : ℚ) (u : String), convert_distance_to_travel_time x 99 u
        = (convert_to_lightyears x u).map
            (fun ly => dec_mul (dec_div ly (dec_div 99 100)) 31557600)) ∧
    ∃ t : ℚ, convert_distance_to_travel_time (mkRat 17 4) 99 "ly" = some t ∧
      qabs (qsub (qdiv t 31557600) (mkRat 425 99)) ≤ mkRat 1 (10 ^ 190) ∧
      qabs (qsub (qdiv t 31557600) (mkRat 42929292929 (10 ^ 10))) ≤ mkRat 1 (10 ^ 10) := by
  constructor
  · intro x u
    have h99 : ¬(dec_div (99 : ℚ) 100 = 0) := by decide
    simp only [convert_distance_to_travel_time, convert_to_lightyears]
    split_ifs with h1 h2 h3 <;> simp [h99]
  · exact ⟨mkRat 2709490909090909090909090909090909090909090909090909090909090909090909090909090909090909090909090909090909090909090909090909090909090909090909090909090909090909090909090909090909090909090909090909091 (2 * 10 ^ 190),
      by decide, by decide, by decide⟩

/-- Claim C7: `format_time 0` is exactly `"0 seconds"` and
`format_time 31557600` is exactly `"1 years"` — the plural label is appended
regardless of the count. -/
theorem claim_C7_format_duration :
    format_time 0 = "0 seconds" ∧ format_time 31557600 = "1 years" :=
  ⟨by decide, by decide⟩

/-- Claim C8: `SI_PREFIXES` is strictly descending in its thresholds, the
scan picks the first entry whose threshold `|value|` meets (10⁶ for
299792458), and the rendering is `"299.792458 Million"`. -/
theorem claim_C8_format_magnitude :
    List.Pairwise (fun a b : ℚ × String => b.1 < a.1) SI_PREFIXES ∧
    SI_PREFIXES.find? (fun fp => decide (fp.1 ≤ qabs (299792458 : ℚ)))
      = some (qpow 10 6, "Million") ∧
    format_large_or_small_number 299792458 = "299.792458 Million" :=
  ⟨by decide, by decide, by decide⟩

/-- Claim C9 (amended): every valid real-number literal is accepted by
`safe_decimal_convert` with its exact decimal value (the stripping phase is
the identity on literals, and the numeric grammar extends the literal
grammar); the converse direction of the claim fails, because the `Decimal`
grammar also accepts non-literals — see the counterexample. -/
theorem claim_C9_literal_parse (s : String) (q : ℚ) (h : realLiteral? s = some q) :
    safe_decimal_convert s = some (PyDec.finite q) := by
  simp only [realLiteral?] at h
  rcases hnum : scanNumeric (scanSign s.data).2 with _ | q'
  · rw [hnum] at h
    simp at h
  · rw [hnum] at h
    simp only [Option.map_some', Option.some.injEq] at h
    have hplain : ∀ c ∈ s.data, plainChar c = true := by
      intro c hc
      rcases scanSign_mem s.data c hc with h1 | h1 | h1
      · rw [h1]
        decide
      · rw [h1]
        decide
      · exact scanNumeric_plain hnum c h1
    have hid : (stripWS s.data).filter (· != '_') = s.data := strip_filter_id hplain
    simp only [safe_decimal_convert, pyDecimalParse]
    rw [hid, hnum]
    exact congrArg (fun t => some (PyDec.finite t)) h

/-- Witness for C9: the literal `"123.456"`. -/
theorem claim_C9_witness :
    safe_decimal_convert "123.456" = some (PyDec.finite (mkRat 123456 1000)) :=
  claim_C9_literal_parse "123.456" (mkRat 123456 1000) (by decide)

/-- Counterexample to C9 as stated: `Decimal` accepts strings that are not
real-number literals — special values and whitespace-padded strings — so the
parse does not fail exactly on non-literals. -/
theorem claim_C9_counterexample :
    isRealNumberLiteral "NaN" = false ∧
    safe_decimal_convert "NaN" = some PyDec.nan ∧
    isRealNumberLiteral " 12 " = false ∧
    safe_decimal_convert " 12 " = some (PyDec.finite 12) :=
  ⟨by decide, by decide, by decide, by decide⟩

/-- Claim C10: the gamma computation is independent of the unit scale chosen
for `c`: every constant of the unit table is `c_m/s` times a power of ten, and
every `Decimal` rounding step commutes with powers of the base, so
`time_dilation_factor` returns for it exactly what it returns for m/s. -/
theorem claim_C10_unit_independence (v c : ℚ) (h0 : 0 < v) (h1 : v < 100)
    (hc : c ∈ c_units) : time_dilation_factor v c = time_dilation_factor v C_MS := by
  simp only [c_units, List.mem_cons, List.not_mem_nil, or_false] at hc
  rcases hc with hc | hc | hc | hc | hc <;> subst hc
  · rfl
  · have h : C_CMS = qmul C_MS (qpow 10 ((2 : ℕ) : ℤ)) := by decide
    rw [h, qmul_eq, qpow_eq]
    exact tdf_scale v C_MS 2
  · have h : C_MMS = qmul C_MS (qpow 10 ((3 : ℕ) : ℤ)) := by decide
    rw [h, qmul_eq, qpow_eq]
    exact tdf_scale v C_MS 3
  · have h : C_UM = qmul C_MS (qpow 10 ((6 : ℕ) : ℤ)) := by decide
    rw [h, qmul_eq, qpow_eq]
    exact tdf_scale v C_MS 6
  · have h : C_NM = qmul C_MS (qpow 10 ((9 : ℕ) : ℤ)) := by decide
    rw [h, qmul_eq, qpow_eq]
    exact tdf_scale v C_MS 9

/-- Witness for C10: `v = 50` against the cm/s constant. -/
theorem claim_C10_witness :
    time_dilation_factor 50 C_CMS = time_dilation_factor 50 C_MS :=
  claim_C10_unit_independence 50 C_CMS (by decide) (by decide) (by decide)

end TimeDilation
